import Mathlib

/-!
Shallow embedding of the momentum-indicator engine in `src/app/processor.py`
(`compute_indicators`, `analyze_momentum`).

Numeric cells are modelled by `F`: exact rationals plus the IEEE special
values NaN and signed infinity, with arithmetic following the IEEE rules that
numpy/pandas use (NaN propagates; x/0 is a signed infinity for x ≠ 0 and NaN
for 0/0; ∞ − ∞ = NaN; ∞ · 0 = NaN).  A pandas DataFrame is an association
list from column name to column values; a pandas Series is a total function
`Nat → F` (out-of-range positions read as NaN, which the rolling/shift
combinators never consult inside the frame's range).
-/

inductive F where
  | nan : F
  | inf : Bool → F
  | fin : ℚ → F
deriving DecidableEq, Repr

namespace F

def isNan : F → Bool
  | nan => true
  | _ => false

def isFin : F → Bool
  | fin _ => true
  | _ => false

def neg : F → F
  | nan => nan
  | inf s => inf (!s)
  | fin q => fin (-q)

def add : F → F → F
  | nan, _ => nan
  | _, nan => nan
  | inf s, inf t => if s = t then inf s else nan
  | inf s, fin _ => inf s
  | fin _, inf s => inf s
  | fin a, fin b => fin (a + b)

def sub (a b : F) : F := add a (neg b)

def mul : F → F → F
  | nan, _ => nan
  | _, nan => nan
  | inf s, inf t => inf (s == t)
  | inf s, fin q => if q = 0 then nan else inf (s == decide (0 < q))
  | fin q, inf s => if q = 0 then nan else inf (s == decide (0 < q))
  | fin a, fin b => fin (a * b)

def div : F → F → F
  | nan, _ => nan
  | _, nan => nan
  | inf _, inf _ => nan
  | inf s, fin q => if q = 0 then inf s else inf (s == decide (0 < q))
  | fin _, inf _ => fin 0
  | fin a, fin b =>
      if b = 0 then (if a = 0 then nan else inf (decide (0 < a))) else fin (a / b)

def leF : F → F → Bool
  | nan, _ => false
  | _, nan => false
  | inf false, _ => true
  | _, inf true => true
  | inf true, _ => false
  | _, inf false => false
  | fin a, fin b => decide (a ≤ b)

def minF (a b : F) : F :=
  if a.isNan || b.isNan then nan else if leF a b then a else b

def maxF (a b : F) : F :=
  if a.isNan || b.isNan then nan else if leF a b then b else a

/-- NaN-skipping binary minimum: `pd.concat([u, v], axis=1).min(axis=1)`
uses `skipna=True`, so a NaN cell is ignored and only two NaNs give NaN. -/
def pairMin : F → F → F
  | nan, b => b
  | a, nan => a
  | a, b => minF a b

/-- NaN-skipping binary maximum, as `DataFrame.max(axis=1)` with `skipna=True`. -/
def pairMax : F → F → F
  | nan, b => b
  | a, nan => a
  | a, b => maxF a b

def absF : F → F
  | nan => nan
  | inf _ => inf true
  | fin q => fin |q|

/-- `Series.clip(lower=0)`: NaN stays NaN, negative values (and −∞) become 0. -/
def clipLower0 : F → F
  | nan => nan
  | inf s => if s then inf true else fin 0
  | fin q => fin (max q 0)

/-- `Series.clip(upper=0)`: NaN stays NaN, positive values (and +∞) become 0. -/
def clipUpper0 : F → F
  | nan => nan
  | inf s => if s then fin 0 else inf false
  | fin q => fin (min q 0)

end F

/-- A pandas Series over the row index. -/
abbrev Ser := Nat → F

/-- A pandas DataFrame: ordered association list of named columns. -/
abbrev DF := List (String × List F)

/-- Number of rows of a frame (the length of its first column). -/
def nrows : DF → Nat
  | [] => 0
  | c :: _ => c.2.length

/-- Well-formedness: all columns have the frame's row count. -/
abbrev DF.wf (df : DF) : Prop := ∀ c ∈ df, c.2.length = nrows df

/-- All columns of a frame have length `n`. -/
abbrev wfn (d : DF) (n : Nat) : Prop := ∀ c ∈ d, c.2.length = n

/-- Column assignment `df[name] = v`: replace the column in place when the
name exists, otherwise append it at the end (pandas column order). -/
def setCol : DF → String → List F → DF
  | [], nm, v => [(nm, v)]
  | c :: d, nm, v => if c.1 = nm then (nm, v) :: d else c :: setCol d nm v

/-- Read a Series out of a stored column (positions past the end are NaN;
they are never consulted for in-range rows). -/
def serOf (l : List F) : Ser := fun t => l.getD t F.nan

/-- Materialize the first `n` values of a Series as a stored column. -/
def colOf (n : Nat) (f : Ser) : List F := (List.range n).map f

/-- Cell of a named column at a row (NaN when absent, as a neutral default). -/
def colVal (d : DF) (nm : String) (t : Nat) : F :=
  ((List.lookup nm d).getD []).getD t F.nan

def closeName : String := "Close"
def highName : String := "High"
def lowName : String := "Low"
def rsiName : String := "RSI"
def macdName : String := "MACD"
def macdSignalName : String := "MACD_Signal"
def stochKName : String := "Stoch_%K"
def stochDName : String := "Stoch_%D"
def rocName : String := "ROC"
def momentumName : String := "Momentum"
def willrName : String := "Williams_%R"
def tsiName : String := "TSI"
def aoName : String := "AO"
def cciName : String := "CCI"
def cmoName : String := "CMO"
def uoName : String := "UO"

/-- The 13 indicator names, in the order the code assigns them. -/
def names13 : List String :=
  [rsiName, macdName, macdSignalName, stochKName, stochDName, rocName,
   momentumName, willrName, tsiName, aoName, cciName, cmoName, uoName]

/-- `Series.diff()`: NaN at row 0, else current minus previous. -/
def diffS (f : Ser) : Ser := fun t => if t = 0 then F.nan else F.sub (f t) (f (t - 1))

/-- `Series.shift(k)`: NaN for the first `k` rows. -/
def shiftS (k : Nat) (f : Ser) : Ser := fun t => if t < k then F.nan else f (t - k)

/-- Trailing window of size `w` ending at row `t` (only meaningful when
`w ≤ t + 1`, which every caller checks). -/
def windowL (w : Nat) (f : Ser) (t : Nat) : List F :=
  (List.range w).map (fun i => f (t + 1 - w + i))

/-- IEEE sum of a list of cells (NaN propagates, infinities follow IEEE). -/
def sumF (xs : List F) : F := xs.foldl F.add (F.fin 0)

/-- `rolling(w).sum()` with the default `min_periods = w`: NaN until the
window is full, and NaN whenever the window contains a NaN. -/
def rollingSum (w : Nat) (f : Ser) : Ser := fun t =>
  if t + 1 < w then F.nan else sumF (windowL w f t)

/-- `rolling(w).mean()`: the rolling sum divided by the window size. -/
def rollingMean (w : Nat) (f : Ser) : Ser := fun t =>
  if t + 1 < w then F.nan else F.div (sumF (windowL w f t)) (F.fin (w : ℚ))

/-- Fold of the NaN-propagating minimum over a window. -/
def minL : List F → F
  | [] => F.nan
  | x :: xs => xs.foldl F.minF x

def maxL : List F → F
  | [] => F.nan
  | x :: xs => xs.foldl F.maxF x

/-- `rolling(w).min()` with the default `min_periods = w`. -/
def rollingMin (w : Nat) (f : Ser) : Ser := fun t =>
  if t + 1 < w then F.nan else minL (windowL w f t)

/-- `rolling(w).max()` with the default `min_periods = w`. -/
def rollingMax (w : Nat) (f : Ser) : Ser := fun t =>
  if t + 1 < w then F.nan else maxL (windowL w f t)

/-- The mean-absolute-deviation body `np.mean(np.abs(x - x.mean()))` applied
to one raw window. -/
def madW (xs : List F) : F :=
  let m := F.div (sumF xs) (F.fin (xs.length : ℚ))
  F.div (sumF (xs.map (fun x => F.absF (F.sub x m)))) (F.fin (xs.length : ℚ))

/-- `rolling(w).apply(lambda x: np.mean(np.abs(x - x.mean())), raw=True)`. -/
def rollingMad (w : Nat) (f : Ser) : Ser := fun t =>
  if t + 1 < w then F.nan else madW (windowL w f t)

/-- One step of pandas `ewm(span, adjust=False).mean()`: state is the current
weighted average (NaN before the first valid observation) and the relative
old weight.  A repeated value is kept verbatim (pandas skips the update when
the new observation equals the current average); a NaN observation keeps the
average and decays the old weight. -/
def ewmStep (a : ℚ) (st : F × ℚ) (x : F) : F × ℚ :=
  match st.1, x with
  | F.nan, F.nan => (F.nan, st.2)
  | F.nan, v => (v, 1)
  | avg, F.nan => (avg, st.2 * (1 - a))
  | avg, v =>
      if v = avg then (avg, 1)
      else
        (F.div (F.add (F.mul (F.fin (st.2 * (1 - a))) avg) (F.mul (F.fin a) v))
           (F.fin (st.2 * (1 - a) + a)), 1)

def ewmState (a : ℚ) (f : Ser) : Nat → F × ℚ
  | 0 => ewmStep a (F.nan, 1) (f 0)
  | t + 1 => ewmStep a (ewmState a f t) (f (t + 1))

/-- `Series.ewm(span, adjust=False).mean()` with `a = 2/(span+1)`. -/
def ewmS (a : ℚ) (f : Ser) : Ser := fun t => (ewmState a f t).1

/-- `delta = data["Close"].diff()` (also `price_change` in the TSI block). -/
def deltaS (cl : Ser) : Ser := diffS cl

/-- `gain = delta.clip(lower=0)`. -/
def gainS (cl : Ser) : Ser := fun t => F.clipLower0 (deltaS cl t)

/-- `loss = -delta.clip(upper=0)`. -/
def lossS (cl : Ser) : Ser := fun t => F.neg (F.clipUpper0 (deltaS cl t))

/-- `avg_gain = gain.rolling(window=14).mean()`. -/
def avgGainS (cl : Ser) : Ser := rollingMean 14 (gainS cl)

/-- `avg_loss = loss.rolling(window=14).mean()`. -/
def avgLossS (cl : Ser) : Ser := rollingMean 14 (lossS cl)

/-- `rs = avg_gain / avg_loss`. -/
def rsS (cl : Ser) : Ser := fun t => F.div (avgGainS cl t) (avgLossS cl t)

/-- `data["RSI"] = 100 - (100 / (1 + rs))`. -/
def rsiS (cl : Ser) : Ser := fun t =>
  F.sub (F.fin 100) (F.div (F.fin 100) (F.add (F.fin 1) (rsS cl t)))

/-- `ema_12 = data["Close"].ewm(span=12, adjust=False).mean()`. -/
def ema12S (cl : Ser) : Ser := ewmS (2 / 13) cl

/-- `ema_26 = data["Close"].ewm(span=26, adjust=False).mean()`. -/
def ema26S (cl : Ser) : Ser := ewmS (2 / 27) cl

/-- `data["MACD"] = ema_12 - ema_26`. -/
def macdS (cl : Ser) : Ser := fun t => F.sub (ema12S cl t) (ema26S cl t)

/-- `data["MACD_Signal"] = data["MACD"].ewm(span=9, adjust=False).mean()`. -/
def macdSignalS (cl : Ser) : Ser := ewmS (1 / 5) (macdS cl)

/-- `low_14 = data["Low"].rolling(window=14).min()`. -/
def low14S (lo : Ser) : Ser := rollingMin 14 lo

/-- `high_14 = data["High"].rolling(window=14).max()`. -/
def high14S (hi : Ser) : Ser := rollingMax 14 hi

/-- `data["Stoch_%K"] = 100 * (data["Close"] - low_14) / (high_14 - low_14)`. -/
def stochKS (cl hi lo : Ser) : Ser := fun t =>
  F.div (F.mul (F.fin 100) (F.sub (cl t) (low14S lo t)))
    (F.sub (high14S hi t) (low14S lo t))

/-- `data["Stoch_%D"] = data["Stoch_%K"].rolling(window=3).mean()`. -/
def stochDS (cl hi lo : Ser) : Ser := rollingMean 3 (stochKS cl hi lo)

/-- `data["ROC"] = data["Close"].pct_change(periods=12) * 100`; pandas
computes `pct_change` as the series divided by its shift, minus one. -/
def rocS (cl : Ser) : Ser := fun t =>
  F.mul (F.sub (F.div (cl t) (shiftS 12 cl t)) (F.fin 1)) (F.fin 100)

/-- `data["Momentum"] = data["Close"] - data["Close"].shift(10)`. -/
def momentumS (cl : Ser) : Ser := fun t => F.sub (cl t) (shiftS 10 cl t)

/-- `data["Williams_%R"] = -100 * (high_14 - data["Close"]) / (high_14 - low_14)`. -/
def willrS (cl hi lo : Ser) : Ser := fun t =>
  F.div (F.mul (F.fin (-100)) (F.sub (high14S hi t) (cl t)))
    (F.sub (high14S hi t) (low14S lo t))

/-- `double_smoothed_pc`: span-25 then span-13 EWM of the close delta. -/
def dspS (cl : Ser) : Ser := ewmS (1 / 7) (ewmS (1 / 13) (deltaS cl))

/-- `price_change.abs()`. -/
def absDeltaS (cl : Ser) : Ser := fun t => F.absF (deltaS cl t)

/-- `double_smoothed_abs_pc`: span-25 then span-13 EWM of `|delta|`. -/
def dsapS (cl : Ser) : Ser := ewmS (1 / 7) (ewmS (1 / 13) (absDeltaS cl))

/-- `data["TSI"] = 100 * (double_smoothed_pc / double_smoothed_abs_pc)`. -/
def tsiS (cl : Ser) : Ser := fun t => F.mul (F.fin 100) (F.div (dspS cl t) (dsapS cl t))

/-- `median_price = (data["High"] + data["Low"]) / 2`. -/
def medianPriceS (hi lo : Ser) : Ser := fun t => F.div (F.add (hi t) (lo t)) (F.fin 2)

/-- `data["AO"] = sma_5 - sma_34` over the median price. -/
def aoS (hi lo : Ser) : Ser := fun t =>
  F.sub (rollingMean 5 (medianPriceS hi lo) t) (rollingMean 34 (medianPriceS hi lo) t)

/-- `typical_price = (data["High"] + data["Low"] + data["Close"]) / 3`. -/
def typicalPriceS (cl hi lo : Ser) : Ser := fun t =>
  F.div (F.add (F.add (hi t) (lo t)) (cl t)) (F.fin 3)

/-- `sma_tp = typical_price.rolling(window=20).mean()`. -/
def smaTpS (cl hi lo : Ser) : Ser := rollingMean 20 (typicalPriceS cl hi lo)

/-- `mad = typical_price.rolling(window=20).apply(..mean abs deviation..)`. -/
def madS (cl hi lo : Ser) : Ser := rollingMad 20 (typicalPriceS cl hi lo)

/-- `data["CCI"] = (typical_price - sma_tp) / (0.015 * mad)`. -/
def cciS (cl hi lo : Ser) : Ser := fun t =>
  F.div (F.sub (typicalPriceS cl hi lo t) (smaTpS cl hi lo t))
    (F.mul (F.fin (3 / 200)) (madS cl hi lo t))

/-- `gain_cmo = delta.clip(lower=0).rolling(window=14).sum()`. -/
def gainCmoS (cl : Ser) : Ser := rollingSum 14 (gainS cl)

/-- `loss_cmo = -delta.clip(upper=0).rolling(window=14).sum()` (the unary
minus applies to the whole rolling sum). -/
def lossCmoS (cl : Ser) : Ser := fun t =>
  F.neg (rollingSum 14 (fun s => F.clipUpper0 (deltaS cl s)) t)

/-- `data["CMO"] = 100 * (gain_cmo - loss_cmo) / (gain_cmo + loss_cmo)`. -/
def cmoS (cl : Ser) : Ser := fun t =>
  F.div (F.mul (F.fin 100) (F.sub (gainCmoS cl t) (lossCmoS cl t)))
    (F.add (gainCmoS cl t) (lossCmoS cl t))

/-- `prev_close = data["Close"].shift(1)`. -/
def prevCloseS (cl : Ser) : Ser := shiftS 1 cl

/-- `bp = data["Close"] - pd.concat([data["Low"], prev_close], axis=1).min(axis=1)`. -/
def bpS (cl lo : Ser) : Ser := fun t =>
  F.sub (cl t) (F.pairMin (lo t) (prevCloseS cl t))

/-- `tr`: row-wise max of High and previous Close minus row-wise min of Low
and previous Close. -/
def trS (cl hi lo : Ser) : Ser := fun t =>
  F.sub (F.pairMax (hi t) (prevCloseS cl t)) (F.pairMin (lo t) (prevCloseS cl t))

/-- `avg7 = bp.rolling(7).sum() / tr.rolling(7).sum()`. -/
def avg7S (cl hi lo : Ser) : Ser := fun t =>
  F.div (rollingSum 7 (bpS cl lo) t) (rollingSum 7 (trS cl hi lo) t)

def avg14S (cl hi lo : Ser) : Ser := fun t =>
  F.div (rollingSum 14 (bpS cl lo) t) (rollingSum 14 (trS cl hi lo) t)

def avg28S (cl hi lo : Ser) : Ser := fun t =>
  F.div (rollingSum 28 (bpS cl lo) t) (rollingSum 28 (trS cl hi lo) t)

/-- `data["UO"] = 100 * (4 * avg7 + 2 * avg14 + avg28) / 7`. -/
def uoS (cl hi lo : Ser) : Ser := fun t =>
  F.div
    (F.mul (F.fin 100)
      (F.add (F.add (F.mul (F.fin 4) (avg7S cl hi lo t)) (F.mul (F.fin 2) (avg14S cl hi lo t)))
        (avg28S cl hi lo t)))
    (F.fin 7)

/-- The 13 indicator columns of `compute_indicators`, in source order. -/
def indicatorCols (cl hi lo : Ser) (n : Nat) : List (String × List F) :=
  [(rsiName, colOf n (rsiS cl)), (macdName, colOf n (macdS cl)),
   (macdSignalName, colOf n (macdSignalS cl)), (stochKName, colOf n (stochKS cl hi lo)),
   (stochDName, colOf n (stochDS cl hi lo)), (rocName, colOf n (rocS cl)),
   (momentumName, colOf n (momentumS cl)), (willrName, colOf n (willrS cl hi lo)),
   (tsiName, colOf n (tsiS cl)), (aoName, colOf n (aoS hi lo)),
   (cciName, colOf n (cciS cl hi lo)), (cmoName, colOf n (cmoS cl)),
   (uoName, colOf n (uoS cl hi lo))]

/-- Assign a list of columns to a frame, left to right. -/
def applyCols (df : DF) (ws : List (String × List F)) : DF :=
  ws.foldl (fun d c => setCol d c.1 c.2) df

/-- The 13 column assignments of `compute_indicators`, in source order,
applied to the copied frame. -/
def enrich (df : DF) (cl hi lo : Ser) (n : Nat) : DF :=
  applyCols df (indicatorCols cl hi lo n)

/-- `compute_indicators`: on a frame with the three price columns, return the
enriched copy; when a required column is missing the raised `ValueError` is
caught by the blanket handler and the empty frame is returned. -/
def compute_indicators (df : DF) : DF :=
  match List.lookup closeName df, List.lookup highName df, List.lookup lowName df with
  | some cs, some hs, some ls => enrich df (serOf cs) (serOf hs) (serOf ls) cs.length
  | _, _, _ => []

/-- `analyze_momentum`: empty mapping on an empty frame, else the 13 fields
read from the last row. -/
def analyze_momentum (df : DF) : List (String × F) :=
  let d := compute_indicators df
  if nrows d = 0 then []
  else names13.map (fun nm => (nm, colVal d nm (nrows d - 1)))

/-- Heap of pandas DataFrame objects, for the aliasing/mutation claim:
a handle is an index into the store. -/
abbrev Heap := List DF

/-- Allocate a fresh frame (`data.copy()` and `pd.DataFrame()` both allocate). -/
def heapAlloc (s : Heap) (d : DF) : Heap × Nat := (s ++ [d], s.length)

/-- In-place column assignment `obj[name] = v` on the object behind a handle. -/
def heapWrite (s : Heap) (h : Nat) (nm : String) (v : List F) : Heap :=
  s.set h (setCol ((s[h]?).getD []) nm v)

/-- Perform a sequence of in-place column assignments on one heap object. -/
def writeMany (s : Heap) (h : Nat) (ws : List (String × List F)) : Heap :=
  ws.foldl (fun s' c => heapWrite s' h c.1 c.2) s

/-- `compute_indicators` with the pandas object store explicit: line 33
copies the argument into a fresh object and every later column assignment
mutates only that copy (or, on the error path, a fresh empty frame). -/
def compute_indicators_heap (s : Heap) (h : Nat) : Heap × Nat :=
  let d := (s[h]?).getD []
  let p := heapAlloc s d
  match List.lookup closeName d, List.lookup highName d, List.lookup lowName d with
  | some cs, some hs, some ls =>
      (writeMany p.1 p.2 (indicatorCols (serOf cs) (serOf hs) (serOf ls) cs.length), p.2)
  | _, _, _ => heapAlloc p.1 []

/-- Frame whose three price columns are one constant everywhere. -/
def dfConst (n : Nat) (c : ℚ) : DF :=
  [(closeName, List.replicate n (F.fin c)), (highName, List.replicate n (F.fin c)),
   (lowName, List.replicate n (F.fin c))]

/-- Strictly increasing 15-row column: the price equals the row index. -/
def incCol : List F := colOf 15 (fun i => F.fin (i : ℚ))

/-- Strictly increasing 15-row frame: all three prices equal the row index. -/
def dfInc : DF := [(closeName, incCol), (highName, incCol), (lowName, incCol)]

/-- Close column that is 0 for 13 rows and jumps to 1 at the last row. -/
def infExClose : List F := List.replicate 13 (F.fin 0) ++ [F.fin 1]

/-- Flat all-zero 14-row column. -/
def infExFlat : List F := List.replicate 14 (F.fin 0)

/-- Frame with zero 14-row high-low range and a final close above it, which
drives Stochastic %K to +∞ at the last row. -/
def dfInfEx : DF := [(closeName, infExClose), (highName, infExFlat), (lowName, infExFlat)]

/-- One-row frame missing the Low column. -/
def dfMissing : DF := [(closeName, [F.fin 1]), (highName, [F.fin 1])]

/-- One-row valid frame that already carries a column named RSI and an
unrelated extra column. -/
def dfRSIcol : DF :=
  [(closeName, [F.fin 1]), (highName, [F.fin 2]), (lowName, [F.fin 0]),
   (rsiName, [F.fin 5]), ("Volume", [F.fin 7])]

/-- Constant close column of the band frame: value 1. -/
def bandClose : List F := List.replicate 14 (F.fin 1)

/-- Constant high column of the band frame: value 2. -/
def bandHigh : List F := List.replicate 14 (F.fin 2)

/-- Constant low column of the band frame: value 0. -/
def bandLow : List F := List.replicate 14 (F.fin 0)

/-- 14-row frame with constant band prices low 0 ≤ close 1 ≤ high 2, whose
14-period high-low range is the constant 2 > 0. -/
def dfBand : DF := [(closeName, bandClose), (highName, bandHigh), (lowName, bandLow)]

/-- Constant close column (value 1) over 34 rows. -/
def band34Close : List F := List.replicate 34 (F.fin 1)

/-- Constant high column (value 2) over 34 rows. -/
def band34High : List F := List.replicate 34 (F.fin 2)

/-- Constant low column (value 0) over 34 rows. -/
def band34Low : List F := List.replicate 34 (F.fin 0)

/-- 34-row band frame: strictly positive range at every row, constant close. -/
def dfBand34 : DF := [(closeName, band34Close), (highName, band34High), (lowName, band34Low)]

/-- Rational view of the trending close: value t+1 at row t. -/
def trendCloseQ : Nat → ℚ := fun i => (i : ℚ) + 1

/-- Rational view of the trending high: value t+2 at row t. -/
def trendHighQ : Nat → ℚ := fun i => (i : ℚ) + 2

/-- Rational view of the trending low: value t at row t. -/
def trendLowQ : Nat → ℚ := fun i => (i : ℚ)

/-- Close column of the trending frame. -/
def trendClose (n : Nat) : List F := colOf n (fun i => F.fin (trendCloseQ i))

/-- High column of the trending frame. -/
def trendHigh (n : Nat) : List F := colOf n (fun i => F.fin (trendHighQ i))

/-- Low column of the trending frame. -/
def trendLow (n : Nat) : List F := colOf n (fun i => F.fin (trendLowQ i))

/-- Trending frame with per-row positive range: close t+1, high t+2, low t. -/
def dfTrend (n : Nat) : DF :=
  [(closeName, trendClose n), (highName, trendHigh n), (lowName, trendLow n)]

/-- A cell that is NaN, +∞, or a nonnegative finite value: the closure of
the RSI gain/loss aggregates under the operations that produce them. -/
def NN (x : F) : Prop := x = F.nan ∨ x = F.inf true ∨ ∃ a : ℚ, x = F.fin a ∧ 0 ≤ a

namespace F

@[simp]
theorem nan_add (x : F) : add nan x = nan := by cases x <;> rfl

@[simp]
theorem add_nan (x : F) : add x nan = nan := by cases x <;> rfl

@[simp]
theorem nan_sub (x : F) : sub nan x = nan := by cases x <;> rfl

@[simp]
theorem sub_nan (x : F) : sub x nan = nan := by cases x <;> rfl

@[simp]
theorem nan_mul (x : F) : mul nan x = nan := by cases x <;> rfl

@[simp]
theorem mul_nan (x : F) : mul x nan = nan := by cases x <;> rfl

@[simp]
theorem nan_div (x : F) : div nan x = nan := by cases x <;> rfl

@[simp]
theorem div_nan (x : F) : div x nan = nan := by cases x <;> rfl

@[simp]
theorem add_fin (a b : ℚ) : add (fin a) (fin b) = fin (a + b) := rfl

@[simp]
theorem sub_fin (a b : ℚ) : sub (fin a) (fin b) = fin (a - b) := by
  simp [sub, add, neg, sub_eq_add_neg]

@[simp]
theorem mul_fin (a b : ℚ) : mul (fin a) (fin b) = fin (a * b) := rfl

theorem div_fin (a : ℚ) {b : ℚ} (hb : b ≠ 0) : div (fin a) (fin b) = fin (a / b) := by
  simp [div, hb]

theorem div_fin_zero_zero : div (fin 0) (fin 0) = nan := by simp [div]

theorem div_fin_zero_pos {a : ℚ} (ha : 0 < a) : div (fin a) (fin 0) = inf true := by
  simp [div, ha.ne', ha]

theorem div_fin_zero_neg {a : ℚ} (ha : a < 0) : div (fin a) (fin 0) = inf false := by
  simp [div, ha.ne, not_lt.mpr ha.le]

@[simp]
theorem minF_fin (a b : ℚ) : minF (fin a) (fin b) = fin (min a b) := by
  by_cases h : a ≤ b
  · simp [minF, leF, isNan, h, min_eq_left h]
  · simp [minF, leF, isNan, h, min_eq_right (le_of_not_le h)]

@[simp]
theorem maxF_fin (a b : ℚ) : maxF (fin a) (fin b) = fin (max a b) := by
  by_cases h : a ≤ b
  · simp [maxF, leF, isNan, h, max_eq_right h]
  · simp [maxF, leF, isNan, h, max_eq_left (le_of_not_le h)]

@[simp]
theorem pairMin_fin (a b : ℚ) : pairMin (fin a) (fin b) = fin (min a b) := by
  simp [pairMin]

@[simp]
theorem pairMax_fin (a b : ℚ) : pairMax (fin a) (fin b) = fin (max a b) := by
  simp [pairMax]

@[simp]
theorem pairMin_nan_right (a : F) : pairMin a nan = a := by cases a <;> rfl

@[simp]
theorem pairMax_nan_right (a : F) : pairMax a nan = a := by cases a <;> rfl

@[simp]
theorem absF_fin (a : ℚ) : absF (fin a) = fin |a| := rfl

@[simp]
theorem neg_fin (a : ℚ) : neg (fin a) = fin (-a) := rfl

@[simp]
theorem neg_nan' : neg nan = nan := rfl

@[simp]
theorem clipLower0_nan : clipLower0 nan = nan := rfl

@[simp]
theorem clipUpper0_nan : clipUpper0 nan = nan := rfl

@[simp]
theorem clipLower0_fin (a : ℚ) : clipLower0 (fin a) = fin (max a 0) := rfl

@[simp]
theorem clipUpper0_fin (a : ℚ) : clipUpper0 (fin a) = fin (min a 0) := rfl

@[simp]
theorem add_inf_fin (s : Bool) (a : ℚ) : add (inf s) (fin a) = inf s := rfl

@[simp]
theorem add_fin_inf (s : Bool) (a : ℚ) : add (fin a) (inf s) = inf s := rfl

@[simp]
theorem div_fin_inf (s : Bool) (a : ℚ) : div (fin a) (inf s) = fin 0 := rfl

@[simp]
theorem isFin_fin (a : ℚ) : isFin (fin a) = true := rfl

@[simp]
theorem isFin_nan : isFin nan = false := rfl

@[simp]
theorem isFin_inf (s : Bool) : isFin (inf s) = false := rfl

end F

theorem lookup_mem {l : List (String × List F)} {a : String} {b : List F}
    (h : List.lookup a l = some b) : (a, b) ∈ l := by
  induction l with
  | nil => simp [List.lookup] at h
  | cons c l ih =>
      rw [List.lookup] at h
      cases hc : (a == c.1) with
      | true =>
          simp [hc] at h
          have ha : a = c.1 := by simpa using hc
          rw [ha, show b = c.2 from h.symm]
          exact List.mem_cons_self _ _
      | false =>
          simp [hc] at h
          exact List.mem_cons_of_mem _ (ih h)

theorem lookup_setCol_self (d : DF) (nm : String) (v : List F) :
    List.lookup nm (setCol d nm v) = some v := by
  induction d with
  | nil => simp [setCol, List.lookup]
  | cons c d ih =>
      rw [setCol]
      by_cases hc : c.1 = nm
      · simp [hc, List.lookup]
      · have hb : (nm == c.1) = false := by
          simp [Ne.symm hc]
        simp [hc, List.lookup, hb, ih]

theorem lookup_setCol_ne {nm nm' : String} (h : nm ≠ nm') (d : DF) (v : List F) :
    List.lookup nm (setCol d nm' v) = List.lookup nm d := by
  induction d with
  | nil =>
      have h1 : (nm == nm') = false := by simp [h]
      simp [setCol, List.lookup, h1]
  | cons c d ih =>
      rw [setCol]
      by_cases hc : c.1 = nm'
      · have h1 : (nm == nm') = false := by simp [h]
        have h2 : (nm == c.1) = false := by
          rw [hc]
          simp [h]
        simp [hc, List.lookup, h1, h2]
      · rw [if_neg hc]
        rw [List.lookup, List.lookup, ih]

theorem mem_setCol {c : String × List F} {d : DF} {nm : String} {v : List F}
    (h : c ∈ setCol d nm v) : c ∈ d ∨ c = (nm, v) := by
  induction d with
  | nil =>
      simp [setCol] at h
      right
      exact h
  | cons c' d ih =>
      rw [setCol] at h
      by_cases hc : c'.1 = nm
      · rw [if_pos hc] at h
        rcases List.mem_cons.mp h with h1 | h1
        · right; exact h1
        · left; exact List.mem_cons_of_mem _ h1
      · rw [if_neg hc] at h
        rcases List.mem_cons.mp h with h1 | h1
        · left
          rw [h1]
          exact List.mem_cons_self _ _
        · rcases ih h1 with h2 | h2
          · left; exact List.mem_cons_of_mem _ h2
          · right; exact h2

theorem setCol_ne_nil (d : DF) (nm : String) (v : List F) : setCol d nm v ≠ [] := by
  cases d with
  | nil => simp [setCol]
  | cons c d =>
      rw [setCol]
      by_cases hc : c.1 = nm
      · simp [hc]
      · simp [hc]


theorem wfn_setCol {d : DF} {n : Nat} (hd : wfn d n) {v : List F} (hv : v.length = n)
    (nm : String) : wfn (setCol d nm v) n := by
  intro c hc
  rcases mem_setCol hc with h | h
  · exact hd c h
  · rw [h]; exact hv

@[simp]
theorem colOf_length (n : Nat) (f : Ser) : (colOf n f).length = n := by
  simp [colOf]

theorem colOf_getD {n t : Nat} (f : Ser) (h : t < n) : (colOf n f).getD t F.nan = f t := by
  simp [colOf, List.getD, List.getElem?_map, List.getElem?_range, h]

theorem nrows_eq_of_wfn {d : DF} {n : Nat} (hd : d ≠ []) (h : wfn d n) : nrows d = n := by
  cases d with
  | nil => exact absurd rfl hd
  | cons c d => exact h c (List.mem_cons_self _ _)

theorem applyCols_nil (df : DF) : applyCols df [] = df := rfl

theorem applyCols_cons (df : DF) (c : String × List F) (ws : List (String × List F)) :
    applyCols df (c :: ws) = applyCols (setCol df c.1 c.2) ws := rfl

theorem wfn_applyCols {n : Nat} {ws : List (String × List F)}
    (hws : ∀ c ∈ ws, c.2.length = n) : ∀ {df : DF}, wfn df n → wfn (applyCols df ws) n := by
  induction ws with
  | nil => intro df hdf; exact hdf
  | cons c ws ih =>
      intro df hdf
      rw [applyCols_cons]
      exact ih (fun c' hc' => hws c' (List.mem_cons_of_mem _ hc'))
        (wfn_setCol hdf (hws c (List.mem_cons_self _ _)) _)

theorem wfn_enrich {df : DF} {n : Nat} (hdf : wfn df n) (cl hi lo : Ser) :
    wfn (enrich df cl hi lo n) n := by
  unfold enrich
  refine wfn_applyCols ?_ hdf
  intro c hc
  simp [indicatorCols] at hc
  rcases hc with h | h | h | h | h | h | h | h | h | h | h | h | h <;>
    rw [h] <;> simp

theorem applyCols_ne_nil {ws : List (String × List F)} (hws : ws ≠ []) :
    ∀ (df : DF), applyCols df ws ≠ [] := by
  induction ws with
  | nil => exact absurd rfl hws
  | cons c ws ih =>
      intro df
      rw [applyCols_cons]
      cases ws with
      | nil => exact setCol_ne_nil _ _ _
      | cons c' ws' => exact ih (by simp) _

theorem enrich_ne_nil (df : DF) (cl hi lo : Ser) (n : Nat) : enrich df cl hi lo n ≠ [] := by
  unfold enrich
  exact applyCols_ne_nil (by simp [indicatorCols]) _

theorem lookup_enrich_rsi (df : DF) (cl hi lo : Ser) (n : Nat) :
    List.lookup rsiName (enrich df cl hi lo n) = some (colOf n (rsiS cl)) := by
  unfold enrich indicatorCols
  simp only [applyCols_cons, applyCols_nil]
  rw [lookup_setCol_ne (by decide), lookup_setCol_ne (by decide), lookup_setCol_ne (by decide), lookup_setCol_ne (by decide), lookup_setCol_ne (by decide), lookup_setCol_ne (by decide), lookup_setCol_ne (by decide), lookup_setCol_ne (by decide), lookup_setCol_ne (by decide), lookup_setCol_ne (by decide), lookup_setCol_ne (by decide), lookup_setCol_ne (by decide), lookup_setCol_self]

theorem lookup_enrich_macd (df : DF) (cl hi lo : Ser) (n : Nat) :
    List.lookup macdName (enrich df cl hi lo n) = some (colOf n (macdS cl)) := by
  unfold enrich indicatorCols
  simp only [applyCols_cons, applyCols_nil]
  rw [lookup_setCol_ne (by decide), lookup_setCol_ne (by decide), lookup_setCol_ne (by decide), lookup_setCol_ne (by decide), lookup_setCol_ne (by decide), lookup_setCol_ne (by decide), lookup_setCol_ne (by decide), lookup_setCol_ne (by decide), lookup_setCol_ne (by decide), lookup_setCol_ne (by decide), lookup_setCol_ne (by decide), lookup_setCol_self]

theorem lookup_enrich_macdSignal (df : DF) (cl hi lo : Ser) (n : Nat) :
    List.lookup macdSignalName (enrich df cl hi lo n) = some (colOf n (macdSignalS cl)) := by
  unfold enrich indicatorCols
  simp only [applyCols_cons, applyCols_nil]
  rw [lookup_setCol_ne (by decide), lookup_setCol_ne (by decide), lookup_setCol_ne (by decide), lookup_setCol_ne (by decide), lookup_setCol_ne (by decide), lookup_setCol_ne (by decide), lookup_setCol_ne (by decide), lookup_setCol_ne (by decide), lookup_setCol_ne (by decide), lookup_setCol_ne (by decide), lookup_setCol_self]

theorem lookup_enrich_stochK (df : DF) (cl hi lo : Ser) (n : Nat) :
    List.lookup stochKName (enrich df cl hi lo n) = some (colOf n (stochKS cl hi lo)) := by
  unfold enrich indicatorCols
  simp only [applyCols_cons, applyCols_nil]
  rw [lookup_setCol_ne (by decide), lookup_setCol_ne (by decide), lookup_setCol_ne (by decide), lookup_setCol_ne (by decide), lookup_setCol_ne (by decide), lookup_setCol_ne (by decide), lookup_setCol_ne (by decide), lookup_setCol_ne (by decide), lookup_setCol_ne (by decide), lookup_setCol_self]

theorem lookup_enrich_stochD (df : DF) (cl hi lo : Ser) (n : Nat) :
    List.lookup stochDName (enrich df cl hi lo n) = some (colOf n (stochDS cl hi lo)) := by
  unfold enrich indicatorCols
  simp only [applyCols_cons, applyCols_nil]
  rw [lookup_setCol_ne (by decide), lookup_setCol_ne (by decide), lookup_setCol_ne (by decide), lookup_setCol_ne (by decide), lookup_setCol_ne (by decide), lookup_setCol_ne (by decide), lookup_setCol_ne (by decide), lookup_setCol_ne (by decide), lookup_setCol_self]

theorem lookup_enrich_roc (df : DF) (cl hi lo : Ser) (n : Nat) :
    List.lookup rocName (enrich df cl hi lo n) = some (colOf n (rocS cl)) := by
  unfold enrich indicatorCols
  simp only [applyCols_cons, applyCols_nil]
  rw [lookup_setCol_ne (by decide), lookup_setCol_ne (by decide), lookup_setCol_ne (by decide), lookup_setCol_ne (by decide), lookup_setCol_ne (by decide), lookup_setCol_ne (by decide), lookup_setCol_ne (by decide), lookup_setCol_self]

theorem lookup_enrich_momentum (df : DF) (cl hi lo : Ser) (n : Nat) :
    List.lookup momentumName (enrich df cl hi lo n) = some (colOf n (momentumS cl)) := by
  unfold enrich indicatorCols
  simp only [applyCols_cons, applyCols_nil]
  rw [lookup_setCol_ne (by decide), lookup_setCol_ne (by decide), lookup_setCol_ne (by decide), lookup_setCol_ne (by decide), lookup_setCol_ne (by decide), lookup_setCol_ne (by decide), lookup_setCol_self]

theorem lookup_enrich_willr (df : DF) (cl hi lo : Ser) (n : Nat) :
    List.lookup willrName (enrich df cl hi lo n) = some (colOf n (willrS cl hi lo)) := by
  unfold enrich indicatorCols
  simp only [applyCols_cons, applyCols_nil]
  rw [lookup_setCol_ne (by decide), lookup_setCol_ne (by decide), lookup_setCol_ne (by decide), lookup_setCol_ne (by decide), lookup_setCol_ne (by decide), lookup_setCol_self]

theorem lookup_enrich_tsi (df : DF) (cl hi lo : Ser) (n : Nat) :
    List.lookup tsiName (enrich df cl hi lo n) = some (colOf n (tsiS cl)) := by
  unfold enrich indicatorCols
  simp only [applyCols_cons, applyCols_nil]
  rw [lookup_setCol_ne (by decide), lookup_setCol_ne (by decide), lookup_setCol_ne (by decide), lookup_setCol_ne (by decide), lookup_setCol_self]

theorem lookup_enrich_ao (df : DF) (cl hi lo : Ser) (n : Nat) :
    List.lookup aoName (enrich df cl hi lo n) = some (colOf n (aoS hi lo)) := by
  unfold enrich indicatorCols
  simp only [applyCols_cons, applyCols_nil]
  rw [lookup_setCol_ne (by decide), lookup_setCol_ne (by decide), lookup_setCol_ne (by decide), lookup_setCol_self]

theorem lookup_enrich_cci (df : DF) (cl hi lo : Ser) (n : Nat) :
    List.lookup cciName (enrich df cl hi lo n) = some (colOf n (cciS cl hi lo)) := by
  unfold enrich indicatorCols
  simp only [applyCols_cons, applyCols_nil]
  rw [lookup_setCol_ne (by decide), lookup_setCol_ne (by decide), lookup_setCol_self]

theorem lookup_enrich_cmo (df : DF) (cl hi lo : Ser) (n : Nat) :
    List.lookup cmoName (enrich df cl hi lo n) = some (colOf n (cmoS cl)) := by
  unfold enrich indicatorCols
  simp only [applyCols_cons, applyCols_nil]
  rw [lookup_setCol_ne (by decide), lookup_setCol_self]

theorem lookup_enrich_uo (df : DF) (cl hi lo : Ser) (n : Nat) :
    List.lookup uoName (enrich df cl hi lo n) = some (colOf n (uoS cl hi lo)) := by
  unfold enrich indicatorCols
  simp only [applyCols_cons, applyCols_nil]
  rw [lookup_setCol_self]

theorem colVal_enrich_rsi (df : DF) (cl hi lo : Ser) {n t : Nat} (h : t < n) :
    colVal (enrich df cl hi lo n) rsiName t = (rsiS cl) t := by
  rw [colVal, lookup_enrich_rsi, Option.getD_some]
  exact colOf_getD _ h

theorem colVal_enrich_macd (df : DF) (cl hi lo : Ser) {n t : Nat} (h : t < n) :
    colVal (enrich df cl hi lo n) macdName t = (macdS cl) t := by
  rw [colVal, lookup_enrich_macd, Option.getD_some]
  exact colOf_getD _ h

theorem colVal_enrich_macdSignal (df : DF) (cl hi lo : Ser) {n t : Nat} (h : t < n) :
    colVal (enrich df cl hi lo n) macdSignalName t = (macdSignalS cl) t := by
  rw [colVal, lookup_enrich_macdSignal, Option.getD_some]
  exact colOf_getD _ h

theorem colVal_enrich_stochK (df : DF) (cl hi lo : Ser) {n t : Nat} (h : t < n) :
    colVal (enrich df cl hi lo n) stochKName t = (stochKS cl hi lo) t := by
  rw [colVal, lookup_enrich_stochK, Option.getD_some]
  exact colOf_getD _ h

theorem colVal_enrich_stochD (df : DF) (cl hi lo : Ser) {n t : Nat} (h : t < n) :
    colVal (enrich df cl hi lo n) stochDName t = (stochDS cl hi lo) t := by
  rw [colVal, lookup_enrich_stochD, Option.getD_some]
  exact colOf_getD _ h

theorem colVal_enrich_roc (df : DF) (cl hi lo : Ser) {n t : Nat} (h : t < n) :
    colVal (enrich df cl hi lo n) rocName t = (rocS cl) t := by
  rw [colVal, lookup_enrich_roc, Option.getD_some]
  exact colOf_getD _ h

theorem colVal_enrich_momentum (df : DF) (cl hi lo : Ser) {n t : Nat} (h : t < n) :
    colVal (enrich df cl hi lo n) momentumName t = (momentumS cl) t := by
  rw [colVal, lookup_enrich_momentum, Option.getD_some]
  exact colOf_getD _ h

theorem colVal_enrich_willr (df : DF) (cl hi lo : Ser) {n t : Nat} (h : t < n) :
    colVal (enrich df cl hi lo n) willrName t = (willrS cl hi lo) t := by
  rw [colVal, lookup_enrich_willr, Option.getD_some]
  exact colOf_getD _ h

theorem colVal_enrich_tsi (df : DF) (cl hi lo : Ser) {n t : Nat} (h : t < n) :
    colVal (enrich df cl hi lo n) tsiName t = (tsiS cl) t := by
  rw [colVal, lookup_enrich_tsi, Option.getD_some]
  exact colOf_getD _ h

theorem colVal_enrich_ao (df : DF) (cl hi lo : Ser) {n t : Nat} (h : t < n) :
    colVal (enrich df cl hi lo n) aoName t = (aoS hi lo) t := by
  rw [colVal, lookup_enrich_ao, Option.getD_some]
  exact colOf_getD _ h

theorem colVal_enrich_cci (df : DF) (cl hi lo : Ser) {n t : Nat} (h : t < n) :
    colVal (enrich df cl hi lo n) cciName t = (cciS cl hi lo) t := by
  rw [colVal, lookup_enrich_cci, Option.getD_some]
  exact colOf_getD _ h

theorem colVal_enrich_cmo (df : DF) (cl hi lo : Ser) {n t : Nat} (h : t < n) :
    colVal (enrich df cl hi lo n) cmoName t = (cmoS cl) t := by
  rw [colVal, lookup_enrich_cmo, Option.getD_some]
  exact colOf_getD _ h

theorem colVal_enrich_uo (df : DF) (cl hi lo : Ser) {n t : Nat} (h : t < n) :
    colVal (enrich df cl hi lo n) uoName t = (uoS cl hi lo) t := by
  rw [colVal, lookup_enrich_uo, Option.getD_some]
  exact colOf_getD _ h

theorem compute_eq_enrich {df : DF} {cs hs ls : List F}
    (h1 : List.lookup closeName df = some cs) (h2 : List.lookup highName df = some hs)
    (h3 : List.lookup lowName df = some ls) :
    compute_indicators df = enrich df (serOf cs) (serOf hs) (serOf ls) cs.length := by
  simp [compute_indicators, h1, h2, h3]

theorem compute_eq_nil_of_missing {df : DF}
    (hmiss : List.lookup closeName df = none ∨ List.lookup highName df = none ∨
      List.lookup lowName df = none) :
    compute_indicators df = [] := by
  rcases h1 : List.lookup closeName df with _ | cs
  · simp [compute_indicators, h1]
  · rcases h2 : List.lookup highName df with _ | hs
    · simp [compute_indicators, h1, h2]
    · rcases h3 : List.lookup lowName df with _ | ls
      · simp [compute_indicators, h1, h2, h3]
      · rcases hmiss with h | h | h
        · rw [h1] at h; cases h
        · rw [h2] at h; cases h
        · rw [h3] at h; cases h

/-- C7: on every non-empty input frame missing at least one of the Close,
High or Low columns, `compute_indicators` returns the empty frame (the
raised `ValueError` is caught by the blanket handler) and `analyze_momentum`
returns the empty mapping; both functions are total, so no exception
propagates. -/
theorem claim_C7 (df : DF)
    (hmiss : List.lookup closeName df = none ∨ List.lookup highName df = none ∨
      List.lookup lowName df = none)
    (_hne : nrows df ≠ 0) :
    compute_indicators df = [] ∧ analyze_momentum df = [] := by
  have hc := compute_eq_nil_of_missing hmiss
  exact ⟨hc, by simp [analyze_momentum, hc, nrows]⟩

/-- Witness for C7 at a one-row frame missing the Low column. -/
theorem claim_C7_witness :
    compute_indicators dfMissing = [] ∧ analyze_momentum dfMissing = [] :=
  claim_C7 dfMissing (Or.inr (Or.inr (by decide))) (by decide)

/-- C8: a zero-row input frame yields a zero-row enriched result and an empty
summary mapping, with no exception raised. -/
theorem claim_C8 (df : DF) (hwf : DF.wf df) (h0 : nrows df = 0) :
    nrows (compute_indicators df) = 0 ∧ analyze_momentum df = [] := by
  have hn : nrows (compute_indicators df) = 0 := by
    rcases h1 : List.lookup closeName df with _ | cs
    · simp [compute_indicators, h1, nrows]
    · rcases h2 : List.lookup highName df with _ | hs
      · simp [compute_indicators, h1, h2, nrows]
      · rcases h3 : List.lookup lowName df with _ | ls
        · simp [compute_indicators, h1, h2, h3, nrows]
        · have hwfn : wfn df 0 := by
            intro c hcm
            rw [hwf c hcm, h0]
          have hcs : cs.length = 0 := hwfn _ (lookup_mem h1)
          rw [compute_eq_enrich h1 h2 h3, hcs]
          exact nrows_eq_of_wfn (enrich_ne_nil _ _ _ _ _) (wfn_enrich hwfn _ _ _)
  exact ⟨hn, by simp [analyze_momentum, hn]⟩

/-- Witness for C8 at the zero-row constant frame. -/
theorem claim_C8_witness :
    nrows (compute_indicators (dfConst 0 1)) = 0 ∧ analyze_momentum (dfConst 0 1) = [] :=
  claim_C8 (dfConst 0 1) (by decide) (by decide)

theorem heapWrite_getElem_ne {s : Heap} {h i : Nat} (hne : h ≠ i) (nm : String) (v : List F) :
    (heapWrite s h nm v)[i]? = s[i]? := by
  simp [heapWrite, List.getElem?_set_ne hne]

theorem heapWrite_length (s : Heap) (h : Nat) (nm : String) (v : List F) :
    (heapWrite s h nm v).length = s.length := by
  simp [heapWrite]

theorem writeMany_getElem_ne {h i : Nat} (hne : h ≠ i) {ws : List (String × List F)} :
    ∀ (s : Heap), (writeMany s h ws)[i]? = s[i]? := by
  induction ws with
  | nil => intro s; rfl
  | cons c ws ih =>
      intro s
      have : writeMany s h (c :: ws) = writeMany (heapWrite s h c.1 c.2) h ws := rfl
      rw [this, ih, heapWrite_getElem_ne hne]

theorem writeMany_length {h : Nat} {ws : List (String × List F)} :
    ∀ (s : Heap), (writeMany s h ws).length = s.length := by
  induction ws with
  | nil => intro s; rfl
  | cons c ws ih =>
      intro s
      have : writeMany s h (c :: ws) = writeMany (heapWrite s h c.1 c.2) h ws := rfl
      rw [this, ih, heapWrite_length]

theorem writeMany_getElem_self {h : Nat} {ws : List (String × List F)} :
    ∀ (s : Heap), h < s.length →
      (writeMany s h ws)[h]? = some (applyCols ((s[h]?).getD []) ws) := by
  induction ws with
  | nil =>
      intro s hh
      rw [List.getElem?_eq_getElem hh]
      simp [writeMany, applyCols, List.getElem?_eq_getElem hh]
  | cons c ws ih =>
      intro s hh
      have hw : writeMany s h (c :: ws) = writeMany (heapWrite s h c.1 c.2) h ws := rfl
      have hh' : h < (heapWrite s h c.1 c.2).length := by
        rw [heapWrite_length]; exact hh
      rw [hw, ih _ hh', applyCols_cons]
      have : (heapWrite s h c.1 c.2)[h]? = some (setCol ((s[h]?).getD []) c.1 c.2) := by
        simp [heapWrite, List.getElem?_set_self (by simpa using hh)]
      rw [this]
      rfl

/-- C9: `compute_indicators` never mutates the caller's frame.  In the heap
model every object the store held before the call is unchanged after it
(line 33 copies the input and all column assignments hit only the copy), and
the returned handle points at the enriched copy. -/
theorem claim_C9 (s : Heap) (h i : Nat) (hi : i < s.length) :
    (compute_indicators_heap s h).1[i]? = s[i]? ∧
    (compute_indicators_heap s h).1[(compute_indicators_heap s h).2]?
      = some (compute_indicators ((s[h]?).getD [])) := by
  have hbase : (s ++ [(s[h]?).getD []])[i]? = s[i]? := List.getElem?_append_left hi
  have hsome : (s ++ [(s[h]?).getD []])[s.length]? = some ((s[h]?).getD []) :=
    List.getElem?_concat_length _ _
  have hlen : s.length < (s ++ [(s[h]?).getD []]).length := by
    simp
  have hne : s.length ≠ i := fun he => absurd (he ▸ hi) (lt_irrefl _)
  rcases h1 : List.lookup closeName ((s[h]?).getD []) with _ | cs <;>
    rcases h2 : List.lookup highName ((s[h]?).getD []) with _ | hs <;>
      rcases h3 : List.lookup lowName ((s[h]?).getD []) with _ | ls <;>
        simp only [compute_indicators_heap, compute_indicators, heapAlloc, h1, h2, h3] <;>
          first
          | · constructor
              · rw [List.getElem?_append_left (by simpa using Nat.lt_succ_of_lt hi), hbase]
              · have : ((s ++ [(s[h]?).getD []]) ++ [([] : DF)])[(s ++ [(s[h]?).getD []]).length]?
                    = some ([] : DF) := List.getElem?_concat_length _ _
                simpa using this
          | · constructor
              · rw [writeMany_getElem_ne hne, hbase]
              · rw [writeMany_getElem_self _ hlen, hsome]
                rfl

/-- Witness for C9: a two-object store, the untouched slot is observed
unchanged and the result handle holds the enriched copy. -/
theorem claim_C9_witness :
    (compute_indicators_heap [dfMissing, dfConst 2 1] 1).1[0]? = some dfMissing ∧
    (compute_indicators_heap [dfMissing, dfConst 2 1]
        1).1[(compute_indicators_heap [dfMissing, dfConst 2 1] 1).2]?
      = some (compute_indicators (([dfMissing, dfConst 2 1][1]?).getD []) ) := by
  have h := claim_C9 [dfMissing, dfConst 2 1] 1 0 (by decide)
  exact ⟨by rw [h.1]; rfl, h.2⟩

/-- C2: for every input series (given here through rational views of its
three price columns) and every step `t ≥ 1`, the Ultimate Oscillator's
buying pressure is `close[t] − min(low[t], close[t−1])` and its true range is
`max(high[t], close[t−1]) − min(low[t], close[t−1])`, an element-wise
min/max of the two aligned series, never a reduction across other rows or
columns; the UO column of the enriched frame is built from exactly these
row-wise quantities. -/
theorem claim_C2 (df : DF) (cs hs ls : List F)
    (h1 : List.lookup closeName df = some cs) (h2 : List.lookup highName df = some hs)
    (h3 : List.lookup lowName df = some ls)
    (cq hq lq : Nat → ℚ)
    (hc : ∀ u, u < cs.length → cs.getD u F.nan = F.fin (cq u))
    (hh : ∀ u, u < cs.length → hs.getD u F.nan = F.fin (hq u))
    (hl : ∀ u, u < cs.length → ls.getD u F.nan = F.fin (lq u))
    (t : Nat) (ht1 : 1 ≤ t) (ht : t < cs.length) :
    bpS (serOf cs) (serOf ls) t
        = F.sub (serOf cs t) (F.minF (serOf ls t) (serOf cs (t - 1))) ∧
    trS (serOf cs) (serOf hs) (serOf ls) t
        = F.sub (F.maxF (serOf hs t) (serOf cs (t - 1)))
            (F.minF (serOf ls t) (serOf cs (t - 1))) ∧
    colVal (compute_indicators df) uoName t = uoS (serOf cs) (serOf hs) (serOf ls) t := by
  have ht' : t - 1 < cs.length := Nat.lt_of_le_of_lt (Nat.sub_le t 1) ht
  have e1 : serOf cs t = F.fin (cq t) := hc t ht
  have e1' : serOf cs (t - 1) = F.fin (cq (t - 1)) := hc _ ht'
  have e2 : serOf ls t = F.fin (lq t) := hl t ht
  have e3 : serOf hs t = F.fin (hq t) := hh t ht
  have hp : prevCloseS (serOf cs) t = F.fin (cq (t - 1)) := by
    unfold prevCloseS shiftS
    rw [if_neg (by omega)]
    exact e1'
  refine ⟨?_, ?_, ?_⟩
  · simp [bpS, hp, e1, e1', e2]
  · simp [trS, hp, e1', e2, e3]
  · rw [compute_eq_enrich h1 h2 h3]
    exact colVal_enrich_uo _ _ _ _ ht

/-- Witness for C2 on the two-row trending frame at step 1. -/
theorem claim_C2_witness :
    bpS (serOf (trendClose 2)) (serOf (trendLow 2)) 1
        = F.sub (serOf (trendClose 2) 1)
            (F.minF (serOf (trendLow 2) 1) (serOf (trendClose 2) 0)) ∧
    trS (serOf (trendClose 2)) (serOf (trendHigh 2)) (serOf (trendLow 2)) 1
        = F.sub (F.maxF (serOf (trendHigh 2) 1) (serOf (trendClose 2) 0))
            (F.minF (serOf (trendLow 2) 1) (serOf (trendClose 2) 0)) ∧
    colVal (compute_indicators (dfTrend 2)) uoName 1
        = uoS (serOf (trendClose 2)) (serOf (trendHigh 2)) (serOf (trendLow 2)) 1 :=
  claim_C2 (dfTrend 2) (trendClose 2) (trendHigh 2) (trendLow 2)
    rfl rfl rfl trendCloseQ trendHighQ trendLowQ
    (fun u hu => colOf_getD _ (by simpa [trendClose] using hu))
    (fun u hu => colOf_getD _ (by simpa [trendClose] using hu))
    (fun u hu => colOf_getD _ (by simpa [trendClose] using hu))
    1 (by decide) (by simp [trendClose])

theorem getD_replicate {n t : Nat} {x : F} (h : t < n) :
    (List.replicate n x).getD t F.nan = x := by
  simp [List.getD, List.getElem?_replicate, h]

theorem serOf_replicate {n t : Nat} {x : F} (h : t < n) : serOf (List.replicate n x) t = x :=
  getD_replicate h

theorem windowL_const {w t : Nat} {f : Ser} {c : ℚ}
    (hf : ∀ i, t + 1 - w ≤ i → i ≤ t → f i = F.fin c) (hw : w ≤ t + 1) :
    windowL w f t = List.replicate w (F.fin c) := by
  unfold windowL
  have hcg : ∀ i ∈ List.range w, f (t + 1 - w + i) = F.fin c := by
    intro i hi
    have hi' : i < w := List.mem_range.mp hi
    exact hf _ (Nat.le_add_right _ _) (by omega)
  rw [List.map_congr_left hcg, List.map_const']
  simp

theorem foldl_add_replicate (c : ℚ) : ∀ (k : Nat) (a : ℚ),
    (List.replicate k (F.fin c)).foldl F.add (F.fin a) = F.fin (a + k * c) := by
  intro k
  induction k with
  | zero => intro a; simp
  | succ k ih =>
      intro a
      rw [List.replicate_succ, List.foldl_cons, F.add_fin, ih]
      congr 1
      push_cast
      ring

theorem sumF_replicate (c : ℚ) (k : Nat) :
    sumF (List.replicate k (F.fin c)) = F.fin (k * c) := by
  rw [sumF, foldl_add_replicate]
  congr 1
  ring

theorem rollingSum_const {w t : Nat} {f : Ser} {c : ℚ}
    (hf : ∀ i, t + 1 - w ≤ i → i ≤ t → f i = F.fin c) (hw : w ≤ t + 1) :
    rollingSum w f t = F.fin (w * c) := by
  rw [rollingSum, if_neg (by omega), windowL_const hf hw, sumF_replicate]

theorem rollingMean_const {w t : Nat} {f : Ser} {c : ℚ}
    (hf : ∀ i, t + 1 - w ≤ i → i ≤ t → f i = F.fin c) (hw : w ≤ t + 1) (hw0 : w ≠ 0) :
    rollingMean w f t = F.fin c := by
  rw [rollingMean, if_neg (by omega), windowL_const hf hw, sumF_replicate,
    F.div_fin _ (by exact_mod_cast hw0)]
  congr 1
  field_simp

theorem foldl_minF_replicate (c : ℚ) : ∀ (k : Nat),
    (List.replicate k (F.fin c)).foldl F.minF (F.fin c) = F.fin c := by
  intro k
  induction k with
  | zero => simp
  | succ k ih => rw [List.replicate_succ, List.foldl_cons, F.minF_fin, min_self, ih]

theorem foldl_maxF_replicate (c : ℚ) : ∀ (k : Nat),
    (List.replicate k (F.fin c)).foldl F.maxF (F.fin c) = F.fin c := by
  intro k
  induction k with
  | zero => simp
  | succ k ih => rw [List.replicate_succ, List.foldl_cons, F.maxF_fin, max_self, ih]

theorem minL_replicate {w : Nat} (c : ℚ) (hw : w ≠ 0) :
    minL (List.replicate w (F.fin c)) = F.fin c := by
  cases w with
  | zero => exact absurd rfl hw
  | succ k => rw [List.replicate_succ, minL, foldl_minF_replicate]

theorem maxL_replicate {w : Nat} (c : ℚ) (hw : w ≠ 0) :
    maxL (List.replicate w (F.fin c)) = F.fin c := by
  cases w with
  | zero => exact absurd rfl hw
  | succ k => rw [List.replicate_succ, maxL, foldl_maxF_replicate]

theorem rollingMin_const {w t : Nat} {f : Ser} {c : ℚ}
    (hf : ∀ i, t + 1 - w ≤ i → i ≤ t → f i = F.fin c) (hw : w ≤ t + 1) (hw0 : w ≠ 0) :
    rollingMin w f t = F.fin c := by
  rw [rollingMin, if_neg (by omega), windowL_const hf hw, minL_replicate _ hw0]

theorem rollingMax_const {w t : Nat} {f : Ser} {c : ℚ}
    (hf : ∀ i, t + 1 - w ≤ i → i ≤ t → f i = F.fin c) (hw : w ≤ t + 1) (hw0 : w ≠ 0) :
    rollingMax w f t = F.fin c := by
  rw [rollingMax, if_neg (by omega), windowL_const hf hw, maxL_replicate _ hw0]

theorem madW_replicate {w : Nat} (c : ℚ) (hw : w ≠ 0) :
    madW (List.replicate w (F.fin c)) = F.fin 0 := by
  have hw' : ((w : ℚ)) ≠ 0 := by exact_mod_cast hw
  rw [madW]
  simp only [List.length_replicate, sumF_replicate, F.div_fin _ hw', List.map_replicate]
  have h1 : (w : ℚ) * c / w = c := by field_simp
  rw [h1]
  simp only [F.sub_fin, sub_self, F.absF_fin, abs_zero, sumF_replicate, mul_zero]
  rw [F.div_fin _ hw', zero_div]

theorem rollingMad_const {w t : Nat} {f : Ser} {c : ℚ}
    (hf : ∀ i, t + 1 - w ≤ i → i ≤ t → f i = F.fin c) (hw : w ≤ t + 1) (hw0 : w ≠ 0) :
    rollingMad w f t = F.fin 0 := by
  rw [rollingMad, if_neg (by omega), windowL_const hf hw, madW_replicate _ hw0]

theorem ewmState_const {a : ℚ} {f : Ser} {c : ℚ} :
    ∀ {t : Nat}, (∀ s, s ≤ t → f s = F.fin c) → ewmState a f t = (F.fin c, 1) := by
  intro t
  induction t with
  | zero =>
      intro hf
      rw [ewmState, hf 0 (le_refl 0)]
      rfl
  | succ t ih =>
      intro hf
      rw [ewmState, ih (fun s hs => hf s (Nat.le_succ_of_le hs)), hf _ (le_refl _)]
      simp [ewmStep]

theorem ewmS_const {a : ℚ} {f : Ser} {c : ℚ} {t : Nat}
    (hf : ∀ s, s ≤ t → f s = F.fin c) : ewmS a f t = F.fin c := by
  rw [ewmS, ewmState_const hf]

/-- C6 as amended: on every input whose enriched result is non-empty,
`analyze_momentum` returns exactly the 13 indicator keys in order, each
mapped verbatim to that indicator's value at the last row.  An undefined
cell (NaN, including warm-up positions) therefore appears as the undefined
marker itself, but a non-finite infinity is passed through unchanged, not
replaced by the marker. -/
theorem claim_C6 (df : DF) (hne : nrows (compute_indicators df) ≠ 0) :
    analyze_momentum df =
      [(rsiName, colVal (compute_indicators df) rsiName (nrows (compute_indicators df) - 1)),
       (macdName, colVal (compute_indicators df) macdName (nrows (compute_indicators df) - 1)),
       (macdSignalName,
         colVal (compute_indicators df) macdSignalName (nrows (compute_indicators df) - 1)),
       (stochKName, colVal (compute_indicators df) stochKName (nrows (compute_indicators df) - 1)),
       (stochDName, colVal (compute_indicators df) stochDName (nrows (compute_indicators df) - 1)),
       (rocName, colVal (compute_indicators df) rocName (nrows (compute_indicators df) - 1)),
       (momentumName,
         colVal (compute_indicators df) momentumName (nrows (compute_indicators df) - 1)),
       (willrName, colVal (compute_indicators df) willrName (nrows (compute_indicators df) - 1)),
       (tsiName, colVal (compute_indicators df) tsiName (nrows (compute_indicators df) - 1)),
       (aoName, colVal (compute_indicators df) aoName (nrows (compute_indicators df) - 1)),
       (cciName, colVal (compute_indicators df) cciName (nrows (compute_indicators df) - 1)),
       (cmoName, colVal (compute_indicators df) cmoName (nrows (compute_indicators df) - 1)),
       (uoName, colVal (compute_indicators df) uoName (nrows (compute_indicators df) - 1))] := by
  simp [analyze_momentum, hne, names13]

theorem wfn_dfInfEx : wfn dfInfEx 14 := by
  intro c hc
  simp [dfInfEx] at hc
  rcases hc with h | h | h <;> rw [h] <;> simp [infExClose, infExFlat]

theorem nrows_compute_dfInfEx : nrows (compute_indicators dfInfEx) = 14 := by
  rw [compute_eq_enrich (rfl : List.lookup closeName dfInfEx = some infExClose)
    (rfl : List.lookup highName dfInfEx = some infExFlat)
    (rfl : List.lookup lowName dfInfEx = some infExFlat)]
  have hlen : infExClose.length = 14 := by simp [infExClose]
  rw [hlen]
  exact nrows_eq_of_wfn (enrich_ne_nil _ _ _ _ _) (wfn_enrich wfn_dfInfEx _ _ _)

theorem stochK_dfInfEx : colVal (compute_indicators dfInfEx) stochKName 13 = F.inf true := by
  rw [compute_eq_enrich (rfl : List.lookup closeName dfInfEx = some infExClose)
    (rfl : List.lookup highName dfInfEx = some infExFlat)
    (rfl : List.lookup lowName dfInfEx = some infExFlat)]
  rw [colVal_enrich_stochK _ _ _ _ (by simp [infExClose])]
  have hlow : low14S (serOf infExFlat) 13 = F.fin 0 :=
    rollingMin_const (fun i h1 h2 => serOf_replicate (by omega)) (by omega) (by omega)
  have hhigh : high14S (serOf infExFlat) 13 = F.fin 0 :=
    rollingMax_const (fun i h1 h2 => serOf_replicate (by omega)) (by omega) (by omega)
  have hcl13 : serOf infExClose 13 = F.fin 1 := by
    have h13 : (List.replicate 13 (F.fin 0)).length = 13 := by simp
    have hg : ((List.replicate 13 (F.fin 0)) ++ [F.fin 1])[(13 : Nat)]? = some (F.fin 1) := by
      conv_lhs => rw [show (13 : Nat) = (List.replicate 13 (F.fin 0)).length from h13.symm]
      exact List.getElem?_concat_length _ _
    simp [serOf, infExClose, List.getD, hg]
  rw [show stochKS (serOf infExClose) (serOf infExFlat) (serOf infExFlat) 13
      = F.div (F.mul (F.fin 100) (F.sub (serOf infExClose 13) (low14S (serOf infExFlat) 13)))
        (F.sub (high14S (serOf infExFlat) 13) (low14S (serOf infExFlat) 13)) from rfl]
  rw [hlow, hhigh, hcl13, F.sub_fin, F.sub_fin, F.mul_fin]
  norm_num
  exact F.div_fin_zero_pos (by norm_num)

/-- Counterexample to C6 as stated: on `dfInfEx` the last-row Stochastic %K
is +∞, a value that is not a finite number, yet the summary carries the
infinity itself rather than the undefined marker (NaN). -/
theorem claim_C6_cex :
    (stochKName, F.inf true) ∈ analyze_momentum dfInfEx ∧
    F.isFin (F.inf true) = false ∧ F.inf true ≠ F.nan := by
  refine ⟨?_, rfl, by decide⟩
  have h13 : nrows (compute_indicators dfInfEx) - 1 = 13 := by
    rw [nrows_compute_dfInfEx]
  simp [analyze_momentum, nrows_compute_dfInfEx, names13, h13, stochK_dfInfEx]

/-- Witness for C6 at a three-row constant frame. -/
theorem claim_C6_witness :
    analyze_momentum (dfConst 3 1) =
      [(rsiName, colVal (compute_indicators (dfConst 3 1)) rsiName
          (nrows (compute_indicators (dfConst 3 1)) - 1)),
       (macdName, colVal (compute_indicators (dfConst 3 1)) macdName
          (nrows (compute_indicators (dfConst 3 1)) - 1)),
       (macdSignalName, colVal (compute_indicators (dfConst 3 1)) macdSignalName
          (nrows (compute_indicators (dfConst 3 1)) - 1)),
       (stochKName, colVal (compute_indicators (dfConst 3 1)) stochKName
          (nrows (compute_indicators (dfConst 3 1)) - 1)),
       (stochDName, colVal (compute_indicators (dfConst 3 1)) stochDName
          (nrows (compute_indicators (dfConst 3 1)) - 1)),
       (rocName, colVal (compute_indicators (dfConst 3 1)) rocName
          (nrows (compute_indicators (dfConst 3 1)) - 1)),
       (momentumName, colVal (compute_indicators (dfConst 3 1)) momentumName
          (nrows (compute_indicators (dfConst 3 1)) - 1)),
       (willrName, colVal (compute_indicators (dfConst 3 1)) willrName
          (nrows (compute_indicators (dfConst 3 1)) - 1)),
       (tsiName, colVal (compute_indicators (dfConst 3 1)) tsiName
          (nrows (compute_indicators (dfConst 3 1)) - 1)),
       (aoName, colVal (compute_indicators (dfConst 3 1)) aoName
          (nrows (compute_indicators (dfConst 3 1)) - 1)),
       (cciName, colVal (compute_indicators (dfConst 3 1)) cciName
          (nrows (compute_indicators (dfConst 3 1)) - 1)),
       (cmoName, colVal (compute_indicators (dfConst 3 1)) cmoName
          (nrows (compute_indicators (dfConst 3 1)) - 1)),
       (uoName, colVal (compute_indicators (dfConst 3 1)) uoName
          (nrows (compute_indicators (dfConst 3 1)) - 1))] :=
  claim_C6 (dfConst 3 1) (by decide)


theorem setCol_of_not_mem {d : DF} {nm : String} (h : nm ∉ d.map Prod.fst) (v : List F) :
    setCol d nm v = d ++ [(nm, v)] := by
  induction d with
  | nil => rfl
  | cons c d ih =>
      rw [setCol, if_neg (fun he => h (by simp [he]))]
      rw [ih (fun he => h (by simp [he]))]
      rfl

theorem applyCols_map_fst {ws : List (String × List F)} (hnd : (ws.map Prod.fst).Nodup) :
    ∀ {d : DF}, (∀ w ∈ ws, w.1 ∉ d.map Prod.fst) →
      (applyCols d ws).map Prod.fst = d.map Prod.fst ++ ws.map Prod.fst := by
  induction ws with
  | nil => intro d _; simp [applyCols_nil]
  | cons w ws ih =>
      intro d hfresh
      rw [applyCols_cons, setCol_of_not_mem (hfresh w (List.mem_cons_self _ _))]
      have hnd' : (ws.map Prod.fst).Nodup := by
        rw [List.map_cons] at hnd
        exact hnd.of_cons
      have hfresh' : ∀ w' ∈ ws, w'.1 ∉ (d ++ [(w.1, w.2)]).map Prod.fst := by
        intro w' hw' hmem
        rw [List.map_append] at hmem
        rcases List.mem_append.mp hmem with h | h
        · exact hfresh w' (List.mem_cons_of_mem _ hw') h
        · have hne : w'.1 ≠ w.1 := by
            rw [List.map_cons] at hnd
            intro he
            exact (List.nodup_cons.mp hnd).1 (he ▸ List.mem_map_of_mem Prod.fst hw')
          simp at h
          exact hne h
      rw [ih hnd' hfresh']
      simp

theorem applyCols_lookup_not_mem {ws : List (String × List F)} {nm : String}
    (h : nm ∉ ws.map Prod.fst) :
    ∀ (d : DF), List.lookup nm (applyCols d ws) = List.lookup nm d := by
  induction ws with
  | nil => intro d; rfl
  | cons w ws ih =>
      intro d
      rw [applyCols_cons, ih (fun hm => h (List.mem_cons_of_mem _ hm)),
        lookup_setCol_ne (fun he => h (by simp [he])) ]

theorem indicatorCols_map_fst (cl hi lo : Ser) (n : Nat) :
    (indicatorCols cl hi lo n).map Prod.fst = names13 := rfl

/-- C10 as amended: on a well-formed frame that has the three price columns
and no column named like one of the 13 indicators, the enriched result keeps
every original column (same names, same order, same values, same row count)
and differs from the input exactly by the 13 indicator columns appended at
the end in the source's assignment order.  (When the input already has a
column named like an indicator, that column is overwritten instead of
preserved — the counterexample below.) -/
theorem claim_C10 (df : DF) (cs hs ls : List F)
    (h1 : List.lookup closeName df = some cs) (h2 : List.lookup highName df = some hs)
    (h3 : List.lookup lowName df = some ls) (hwf : DF.wf df)
    (hnd : ∀ nm ∈ names13, nm ∉ df.map Prod.fst) :
    (compute_indicators df).map Prod.fst = df.map Prod.fst ++ names13 ∧
    (∀ nm, nm ∉ names13 → List.lookup nm (compute_indicators df) = List.lookup nm df) ∧
    wfn (compute_indicators df) (nrows df) := by
  rw [compute_eq_enrich h1 h2 h3]
  have hn : cs.length = nrows df := hwf _ (lookup_mem h1)
  refine ⟨?_, ?_, ?_⟩
  · unfold enrich
    rw [applyCols_map_fst ?nodup ?fresh, indicatorCols_map_fst]
    case nodup =>
      rw [indicatorCols_map_fst]
      decide
    case fresh =>
      intro w hw
      exact hnd w.1 (indicatorCols_map_fst _ _ _ _ ▸ List.mem_map_of_mem Prod.fst hw)
  · intro nm hnm
    unfold enrich
    exact applyCols_lookup_not_mem (indicatorCols_map_fst _ _ _ _ ▸ hnm) df
  · rw [← hn]
    exact wfn_enrich (fun c hc => (hwf c hc).trans hn.symm) _ _ _

/-- Witness for C10 on the three-column trending frame. -/
theorem claim_C10_witness :
    (compute_indicators (dfTrend 2)).map Prod.fst = (dfTrend 2).map Prod.fst ++ names13 ∧
    (∀ nm, nm ∉ names13 →
      List.lookup nm (compute_indicators (dfTrend 2)) = List.lookup nm (dfTrend 2)) ∧
    wfn (compute_indicators (dfTrend 2)) (nrows (dfTrend 2)) :=
  claim_C10 (dfTrend 2) (trendClose 2) (trendHigh 2) (trendLow 2) rfl rfl rfl
    (by intro c hc
        simp [dfTrend] at hc
        rcases hc with h | h | h <;> rw [h] <;>
          simp [trendClose, trendHigh, trendLow, dfTrend, nrows])
    (by decide)

/-- Counterexample to C10 as stated: the one-row frame `dfRSIcol` already
carries a column named RSI with value 5; `compute_indicators` overwrites it
with the computed (warm-up, undefined) RSI instead of preserving it. -/
theorem claim_C10_cex :
    List.lookup rsiName dfRSIcol = some [F.fin 5] ∧
    colVal (compute_indicators dfRSIcol) rsiName 0 = F.nan ∧ F.nan ≠ F.fin 5 := by
  refine ⟨rfl, ?_, by decide⟩
  rw [compute_eq_enrich (rfl : List.lookup closeName dfRSIcol = some [F.fin 1])
    (rfl : List.lookup highName dfRSIcol = some [F.fin 2])
    (rfl : List.lookup lowName dfRSIcol = some [F.fin 0])]
  rw [colVal_enrich_rsi _ _ _ _ (by simp)]
  rfl

theorem F.div_fin_zero {g : ℚ} (hg : g ≠ 0) :
    F.div (F.fin g) (F.fin 0) = F.inf (decide (0 < g)) := by
  simp [F.div, hg]

/-- C1 as amended: for every input frame with the three price columns, at
every step where one of the six per-indicator denominators is zero and the
matching numerator is also zero, the stored cell is NaN (the explicit
undefined value); when the numerator is nonzero the IEEE quotient is an
infinity instead, which for RSI makes the stored value the defined number
100.  In all cases no exception is raised and the full enriched frame (all
original rows, every column at the input row count) is returned. -/
theorem claim_C1 (df : DF) (cs hs ls : List F)
    (h1 : List.lookup closeName df = some cs) (h2 : List.lookup highName df = some hs)
    (h3 : List.lookup lowName df = some ls) (hwf : DF.wf df)
    (t : Nat) (ht : t < cs.length) :
    (compute_indicators df ≠ [] ∧ wfn (compute_indicators df) (nrows df)) ∧
    (avgLossS (serOf cs) t = F.fin 0 →
      (avgGainS (serOf cs) t = F.fin 0 → colVal (compute_indicators df) rsiName t = F.nan) ∧
      (∀ g : ℚ, g ≠ 0 → avgGainS (serOf cs) t = F.fin g →
        colVal (compute_indicators df) rsiName t = F.fin 100)) ∧
    (F.sub (high14S (serOf hs) t) (low14S (serOf ls) t) = F.fin 0 →
      (F.sub (serOf cs t) (low14S (serOf ls) t) = F.fin 0 →
        colVal (compute_indicators df) stochKName t = F.nan) ∧
      (F.sub (high14S (serOf hs) t) (serOf cs t) = F.fin 0 →
        colVal (compute_indicators df) willrName t = F.nan)) ∧
    (madS (serOf cs) (serOf hs) (serOf ls) t = F.fin 0 →
      F.sub (typicalPriceS (serOf cs) (serOf hs) (serOf ls) t)
          (smaTpS (serOf cs) (serOf hs) (serOf ls) t) = F.fin 0 →
      colVal (compute_indicators df) cciName t = F.nan) ∧
    (F.add (gainCmoS (serOf cs) t) (lossCmoS (serOf cs) t) = F.fin 0 →
      F.sub (gainCmoS (serOf cs) t) (lossCmoS (serOf cs) t) = F.fin 0 →
      colVal (compute_indicators df) cmoName t = F.nan) ∧
    ((rollingSum 7 (trS (serOf cs) (serOf hs) (serOf ls)) t = F.fin 0 →
        rollingSum 7 (bpS (serOf cs) (serOf ls)) t = F.fin 0 →
        colVal (compute_indicators df) uoName t = F.nan) ∧
      (rollingSum 14 (trS (serOf cs) (serOf hs) (serOf ls)) t = F.fin 0 →
        rollingSum 14 (bpS (serOf cs) (serOf ls)) t = F.fin 0 →
        colVal (compute_indicators df) uoName t = F.nan) ∧
      (rollingSum 28 (trS (serOf cs) (serOf hs) (serOf ls)) t = F.fin 0 →
        rollingSum 28 (bpS (serOf cs) (serOf ls)) t = F.fin 0 →
        colVal (compute_indicators df) uoName t = F.nan)) := by
  rw [compute_eq_enrich h1 h2 h3]
  have hn : cs.length = nrows df := hwf _ (lookup_mem h1)
  refine ⟨⟨enrich_ne_nil _ _ _ _ _, ?_⟩, ?_, ?_, ?_, ?_, ?_⟩
  · rw [← hn]
    exact wfn_enrich (fun c hc => (hwf c hc).trans hn.symm) _ _ _
  · intro hd
    constructor
    · intro hg
      rw [colVal_enrich_rsi _ _ _ _ ht]
      simp [rsiS, rsS, hd, hg, F.div_fin_zero_zero]
    · intro g hg0 hg
      rw [colVal_enrich_rsi _ _ _ _ ht]
      simp [rsiS, rsS, hd, hg, F.div_fin_zero hg0]
  · intro hd
    constructor
    · intro hnum
      rw [colVal_enrich_stochK _ _ _ _ ht]
      simp [stochKS, hd, hnum, F.div_fin_zero_zero]
    · intro hnum
      rw [colVal_enrich_willr _ _ _ _ ht]
      simp [willrS, hd, hnum, F.div_fin_zero_zero]
  · intro hmad hnum
    rw [colVal_enrich_cci _ _ _ _ ht]
    simp [cciS, hmad, hnum, F.div_fin_zero_zero]
  · intro hden hnum
    rw [colVal_enrich_cmo _ _ _ _ ht]
    simp [cmoS, hden, hnum, F.div_fin_zero_zero]
  · refine ⟨?_, ?_, ?_⟩ <;> intro hden hnum <;> rw [colVal_enrich_uo _ _ _ _ ht] <;>
      simp [uoS, avg7S, avg14S, avg28S, hden, hnum, F.div_fin_zero_zero]

/-- Witness for C1 at the 15-row constant frame: the enriched result is full. -/
theorem claim_C1_witness :
    compute_indicators (dfConst 15 5) ≠ [] ∧
    wfn (compute_indicators (dfConst 15 5)) (nrows (dfConst 15 5)) :=
  (claim_C1 (dfConst 15 5) (List.replicate 15 (F.fin 5)) (List.replicate 15 (F.fin 5))
    (List.replicate 15 (F.fin 5)) rfl rfl rfl
    (by intro c hc
        simp [dfConst] at hc
        rcases hc with h | h | h <;> rw [h] <;> simp [dfConst, nrows])
    14 (by simp)).1

theorem delta_dfInc {i : Nat} (h1 : 1 ≤ i) (h2 : i ≤ 14) :
    deltaS (serOf incCol) i = F.fin 1 := by
  have hii : serOf incCol i = F.fin (i : ℚ) := colOf_getD _ (by omega)
  have hii' : serOf incCol (i - 1) = F.fin ((i - 1 : Nat) : ℚ) := colOf_getD _ (by omega)
  simp only [deltaS, diffS]
  rw [if_neg (by omega), hii, hii', F.sub_fin]
  congr 1
  rw [Nat.cast_sub h1]
  ring

theorem avgLoss_dfInc : avgLossS (serOf incCol) 14 = F.fin 0 := by
  refine rollingMean_const ?_ (by omega) (by omega)
  intro i hi1 hi2
  have hd : deltaS (serOf incCol) i = F.fin 1 := delta_dfInc (by omega) hi2
  show F.neg (F.clipUpper0 (deltaS (serOf incCol) i)) = F.fin 0
  rw [hd, F.clipUpper0_fin, F.neg_fin]
  norm_num

theorem avgGain_dfInc : avgGainS (serOf incCol) 14 = F.fin 1 := by
  refine rollingMean_const ?_ (by omega) (by omega)
  intro i hi1 hi2
  have hd : deltaS (serOf incCol) i = F.fin 1 := delta_dfInc (by omega) hi2
  show F.clipLower0 (deltaS (serOf incCol) i) = F.fin 1
  rw [hd, F.clipLower0_fin]
  norm_num

/-- Counterexample to C1 as stated: on the strictly increasing frame the
RSI denominator (the 14-period average loss) is zero at step 14, yet the
stored RSI value is the defined number 100, not an undefined value. -/
theorem claim_C1_cex :
    avgLossS (serOf incCol) 14 = F.fin 0 ∧
    colVal (compute_indicators dfInc) rsiName 14 = F.fin 100 ∧ F.fin 100 ≠ F.nan := by
  refine ⟨avgLoss_dfInc, ?_, by decide⟩
  rw [compute_eq_enrich (rfl : List.lookup closeName dfInc = some incCol)
    (rfl : List.lookup highName dfInc = some incCol)
    (rfl : List.lookup lowName dfInc = some incCol)]
  rw [colVal_enrich_rsi _ _ _ _ (by simp [incCol])]
  show rsiS (serOf incCol) 14 = F.fin 100
  simp [rsiS, rsS, avgLoss_dfInc, avgGain_dfInc, F.div_fin_zero (by norm_num : (1 : ℚ) ≠ 0)]

theorem foldl_add_nan : ∀ (xs : List F), xs.foldl F.add F.nan = F.nan := by
  intro xs
  induction xs with
  | nil => rfl
  | cons x xs ih => rw [List.foldl_cons, F.nan_add]; exact ih

theorem foldl_add_nan_of_mem : ∀ (xs : List F) (a : F), F.nan ∈ xs → xs.foldl F.add a = F.nan := by
  intro xs
  induction xs with
  | nil => intro a h; cases h
  | cons x xs ih =>
      intro a h
      rw [List.foldl_cons]
      rcases List.mem_cons.mp h with h1 | h1
      · rw [← h1, F.add_nan]
        exact foldl_add_nan xs
      · exact ih _ h1

theorem sumF_nan_of_mem {xs : List F} (h : F.nan ∈ xs) : sumF xs = F.nan :=
  foldl_add_nan_of_mem xs _ h

theorem mem_windowL {w t i : Nat} (f : Ser) (h1 : t + 1 - w ≤ i) (h2 : i ≤ t)
    (hw : w ≤ t + 1) : f i ∈ windowL w f t := by
  refine List.mem_map.mpr ⟨i - (t + 1 - w), List.mem_range.mpr (by omega), ?_⟩
  congr 1
  omega

theorem rollingSum_nan (w t i : Nat) {f : Ser} (h1 : t + 1 - w ≤ i) (h2 : i ≤ t)
    (hnan : f i = F.nan) (hw : w ≤ t + 1) : rollingSum w f t = F.nan := by
  rw [rollingSum, if_neg (by omega)]
  exact sumF_nan_of_mem (hnan ▸ mem_windowL f h1 h2 hw)

theorem rollingMean_nan (w t i : Nat) {f : Ser} (h1 : t + 1 - w ≤ i) (h2 : i ≤ t)
    (hnan : f i = F.nan) (hw : w ≤ t + 1) : rollingMean w f t = F.nan := by
  rw [rollingMean, if_neg (by omega)]
  rw [show sumF (windowL w f t) = F.nan from sumF_nan_of_mem (hnan ▸ mem_windowL f h1 h2 hw)]
  rfl

/-- C4 as amended: on a frame whose Close, High and Low all equal one
nonzero constant at every step, the enriched result has undefined (NaN)
Stochastic %K, Stochastic %D, Williams %R, CCI and CMO at every step (hence
at every step past their warm-up), while MACD and MACD_Signal equal 0 at
every step and ROC, Momentum and AO equal 0 at every step past their
respective warm-ups.  (For the constant 0 the claim fails: ROC is 0/0 = NaN
past its warm-up — see the counterexample.) -/
theorem claim_C4 (df : DF) (n : Nat) (c : ℚ) (hc0 : c ≠ 0)
    (h1 : List.lookup closeName df = some (List.replicate n (F.fin c)))
    (h2 : List.lookup highName df = some (List.replicate n (F.fin c)))
    (h3 : List.lookup lowName df = some (List.replicate n (F.fin c)))
    (t : Nat) (ht : t < n) :
    colVal (compute_indicators df) stochKName t = F.nan ∧
    colVal (compute_indicators df) stochDName t = F.nan ∧
    colVal (compute_indicators df) willrName t = F.nan ∧
    colVal (compute_indicators df) cciName t = F.nan ∧
    colVal (compute_indicators df) cmoName t = F.nan ∧
    colVal (compute_indicators df) macdName t = F.fin 0 ∧
    colVal (compute_indicators df) macdSignalName t = F.fin 0 ∧
    (12 ≤ t → colVal (compute_indicators df) rocName t = F.fin 0) ∧
    (10 ≤ t → colVal (compute_indicators df) momentumName t = F.fin 0) ∧
    (33 ≤ t → colVal (compute_indicators df) aoName t = F.fin 0) := by
  rw [compute_eq_enrich h1 h2 h3]
  have ht' : t < (List.replicate n (F.fin c)).length := by simpa using ht
  set R := serOf (List.replicate n (F.fin c)) with hRdef
  have hRs : ∀ s, s < n → R s = F.fin c := fun s hs => serOf_replicate hs
  have hK : ∀ u, u < n → stochKS R R R u = F.nan := by
    intro u hu
    by_cases h13 : 13 ≤ u
    · have hlow : low14S R u = F.fin c :=
        rollingMin_const (fun i hi1 hi2 => hRs i (by omega)) (by omega) (by omega)
      have hhigh : high14S R u = F.fin c :=
        rollingMax_const (fun i hi1 hi2 => hRs i (by omega)) (by omega) (by omega)
      show F.div (F.mul (F.fin 100) (F.sub (R u) (low14S R u)))
          (F.sub (high14S R u) (low14S R u)) = F.nan
      rw [hlow, hhigh, hRs u hu]
      simp [F.div_fin_zero_zero]
    · have hlow : low14S R u = F.nan := by rw [low14S, rollingMin, if_pos (by omega)]
      show F.div (F.mul (F.fin 100) (F.sub (R u) (low14S R u)))
          (F.sub (high14S R u) (low14S R u)) = F.nan
      rw [hlow]
      simp
  have htp : ∀ u, u < n → typicalPriceS R R R u = F.fin c := by
    intro u hu
    show F.div (F.add (F.add (R u) (R u)) (R u)) (F.fin 3) = F.fin c
    rw [hRs u hu, F.add_fin, F.add_fin, F.div_fin _ (by norm_num : (3 : ℚ) ≠ 0)]
    congr 1
    ring
  have hMACD : ∀ u, u < n → macdS R u = F.fin 0 := by
    intro u hu
    show F.sub (ewmS (2 / 13) R u) (ewmS (2 / 27) R u) = F.fin 0
    rw [ewmS_const (fun s hs => hRs s (by omega)), ewmS_const (fun s hs => hRs s (by omega))]
    simp
  refine ⟨?_, ?_, ?_, ?_, ?_, ?_, ?_, ?_, ?_, ?_⟩
  · rw [colVal_enrich_stochK _ _ _ _ ht']
    exact hK t ht
  · rw [colVal_enrich_stochD _ _ _ _ ht']
    by_cases h2t : 2 ≤ t
    · exact rollingMean_nan 3 t t (by omega) (le_refl t) (hK t ht) (by omega)
    · show rollingMean 3 (stochKS R R R) t = F.nan
      rw [rollingMean, if_pos (by omega)]
  · rw [colVal_enrich_willr _ _ _ _ ht']
    by_cases h13 : 13 ≤ t
    · have hlow : low14S R t = F.fin c :=
        rollingMin_const (fun i hi1 hi2 => hRs i (by omega)) (by omega) (by omega)
      have hhigh : high14S R t = F.fin c :=
        rollingMax_const (fun i hi1 hi2 => hRs i (by omega)) (by omega) (by omega)
      show F.div (F.mul (F.fin (-100)) (F.sub (high14S R t) (R t)))
          (F.sub (high14S R t) (low14S R t)) = F.nan
      rw [hlow, hhigh, hRs t ht]
      simp [F.div_fin_zero_zero]
    · have hlow : low14S R t = F.nan := by rw [low14S, rollingMin, if_pos (by omega)]
      show F.div (F.mul (F.fin (-100)) (F.sub (high14S R t) (R t)))
          (F.sub (high14S R t) (low14S R t)) = F.nan
      rw [hlow]
      simp
  · rw [colVal_enrich_cci _ _ _ _ ht']
    by_cases h19 : 19 ≤ t
    · have hsma : smaTpS R R R t = F.fin c :=
        rollingMean_const (fun i hi1 hi2 => htp i (by omega)) (by omega) (by omega)
      have hmad : madS R R R t = F.fin 0 :=
        rollingMad_const (fun i hi1 hi2 => htp i (by omega)) (by omega) (by omega)
      show F.div (F.sub (typicalPriceS R R R t) (smaTpS R R R t))
          (F.mul (F.fin (3 / 200)) (madS R R R t)) = F.nan
      rw [hsma, hmad, htp t ht]
      simp [F.div_fin_zero_zero]
    · have hsma : smaTpS R R R t = F.nan := by rw [smaTpS, rollingMean, if_pos (by omega)]
      have hmad : madS R R R t = F.nan := by rw [madS, rollingMad, if_pos (by omega)]
      show F.div (F.sub (typicalPriceS R R R t) (smaTpS R R R t))
          (F.mul (F.fin (3 / 200)) (madS R R R t)) = F.nan
      rw [hsma, hmad]
      simp
  · rw [colVal_enrich_cmo _ _ _ _ ht']
    by_cases h14 : 14 ≤ t
    · have hgain : ∀ i, 1 ≤ i → i ≤ t → gainS R i = F.fin 0 := by
        intro i hi1 hi2
        show F.clipLower0 (deltaS R i) = F.fin 0
        have hd : deltaS R i = F.fin 0 := by
          simp only [deltaS, diffS]
          rw [if_neg (by omega), hRs i (by omega), hRs (i - 1) (by omega), F.sub_fin, sub_self]
        rw [hd, F.clipLower0_fin]
        norm_num
      have hg : gainCmoS R t = F.fin 0 := by
        have := rollingSum_const
          (show ∀ i, t + 1 - 14 ≤ i → i ≤ t → gainS R i = F.fin 0 from
            fun i hi1 hi2 => hgain i (by omega) hi2) (show 14 ≤ t + 1 by omega)
        simpa using this
      have hl : lossCmoS R t = F.fin 0 := by
        have hloss : ∀ i, 1 ≤ i → i ≤ t → F.clipUpper0 (deltaS R i) = F.fin 0 := by
          intro i hi1 hi2
          have hd : deltaS R i = F.fin 0 := by
            simp only [deltaS, diffS]
            rw [if_neg (by omega), hRs i (by omega), hRs (i - 1) (by omega), F.sub_fin, sub_self]
          rw [hd, F.clipUpper0_fin]
          norm_num
        show F.neg (rollingSum 14 (fun s => F.clipUpper0 (deltaS R s)) t) = F.fin 0
        have := rollingSum_const
          (show ∀ i, t + 1 - 14 ≤ i → i ≤ t →
              (fun s => F.clipUpper0 (deltaS R s)) i = F.fin 0 from
            fun i hi1 hi2 => hloss i (by omega) hi2) (show 14 ≤ t + 1 by omega)
        rw [this]
        simp
      show F.div (F.mul (F.fin 100) (F.sub (gainCmoS R t) (lossCmoS R t)))
          (F.add (gainCmoS R t) (lossCmoS R t)) = F.nan
      rw [hg, hl]
      simp [F.div_fin_zero_zero]
    · have hgn : gainCmoS R t = F.nan := by
        rcases Nat.lt_or_ge t 13 with h | h
        · rw [gainCmoS, rollingSum, if_pos (by omega)]
        · have ht13 : t = 13 := by omega
          subst ht13
          exact rollingSum_nan 14 13 0 (by omega) (by omega)
            (show gainS R 0 = F.nan from rfl) (by omega)
      show F.div (F.mul (F.fin 100) (F.sub (gainCmoS R t) (lossCmoS R t)))
          (F.add (gainCmoS R t) (lossCmoS R t)) = F.nan
      rw [hgn]
      simp
  · rw [colVal_enrich_macd _ _ _ _ ht']
    exact hMACD t ht
  · rw [colVal_enrich_macdSignal _ _ _ _ ht']
    show ewmS (1 / 5) (macdS R) t = F.fin 0
    exact ewmS_const (fun s hs => hMACD s (by omega))
  · intro h12
    rw [colVal_enrich_roc _ _ _ _ ht']
    show F.mul (F.sub (F.div (R t) (shiftS 12 R t)) (F.fin 1)) (F.fin 100) = F.fin 0
    simp only [shiftS]
    rw [if_neg (by omega), hRs (t - 12) (by omega), hRs t ht, F.div_fin _ hc0, div_self hc0,
      F.sub_fin, F.mul_fin]
    norm_num
  · intro h10
    rw [colVal_enrich_momentum _ _ _ _ ht']
    show F.sub (R t) (shiftS 10 R t) = F.fin 0
    simp only [shiftS]
    rw [if_neg (by omega), hRs (t - 10) (by omega), hRs t ht, F.sub_fin, sub_self]
  · intro h33
    rw [colVal_enrich_ao _ _ _ _ ht']
    have hmed : ∀ u, u < n → medianPriceS R R u = F.fin c := by
      intro u hu
      show F.div (F.add (R u) (R u)) (F.fin 2) = F.fin c
      rw [hRs u hu, F.add_fin, F.div_fin _ (by norm_num : (2 : ℚ) ≠ 0)]
      congr 1
      ring
    show F.sub (rollingMean 5 (medianPriceS R R) t) (rollingMean 34 (medianPriceS R R) t)
        = F.fin 0
    rw [rollingMean_const (fun i hi1 hi2 => hmed i (by omega)) (by omega) (by omega),
      rollingMean_const (fun i hi1 hi2 => hmed i (by omega)) (by omega) (by omega),
      F.sub_fin, sub_self]

/-- Witness for C4 at the 34-row constant-1 frame, step 33. -/
theorem claim_C4_witness :
    colVal (compute_indicators (dfConst 34 1)) stochKName 33 = F.nan :=
  (claim_C4 (dfConst 34 1) 34 1 (by norm_num) rfl rfl rfl 33 (by omega)).1

/-- Counterexample to C4 as stated: with the constant 0, ROC past its
warm-up is 0/0, i.e. undefined (NaN), not the defined value 0. -/
theorem claim_C4_cex :
    colVal (compute_indicators (dfConst 13 0)) rocName 12 = F.nan ∧ F.nan ≠ F.fin 0 := by
  refine ⟨?_, by decide⟩
  rw [compute_eq_enrich
    (rfl : List.lookup closeName (dfConst 13 0) = some (List.replicate 13 (F.fin 0)))
    (rfl : List.lookup highName (dfConst 13 0) = some (List.replicate 13 (F.fin 0)))
    (rfl : List.lookup lowName (dfConst 13 0) = some (List.replicate 13 (F.fin 0)))]
  rw [colVal_enrich_roc _ _ _ _ (by simp)]
  show F.mul
      (F.sub (F.div (serOf (List.replicate 13 (F.fin 0)) 12)
        (shiftS 12 (serOf (List.replicate 13 (F.fin 0))) 12)) (F.fin 1)) (F.fin 100) = F.nan
  simp only [shiftS]
  rw [if_neg (by omega), show (12 - 12 : Nat) = 0 from rfl,
    serOf_replicate (show (0 : Nat) < 13 by omega),
    serOf_replicate (show (12 : Nat) < 13 by omega), F.div_fin_zero_zero]
  simp

theorem NN_add {x y : F} (hx : NN x) (hy : NN y) : NN (F.add x y) := by
  rcases hx with rfl | rfl | ⟨a, rfl, ha⟩ <;> rcases hy with rfl | rfl | ⟨b, rfl, hb⟩
  · exact Or.inl (F.nan_add _)
  · exact Or.inl (F.nan_add _)
  · exact Or.inl (F.nan_add _)
  · exact Or.inl (F.add_nan _)
  · exact Or.inr (Or.inl (by simp [F.add]))
  · exact Or.inr (Or.inl rfl)
  · exact Or.inl (F.add_nan _)
  · exact Or.inr (Or.inl rfl)
  · exact Or.inr (Or.inr ⟨a + b, by simp, add_nonneg ha hb⟩)

theorem NN_foldl : ∀ (xs : List F), (∀ x ∈ xs, NN x) → ∀ (a : F), NN a →
    NN (xs.foldl F.add a) := by
  intro xs
  induction xs with
  | nil => intro _ a ha; exact ha
  | cons x xs ih =>
      intro hxs a ha
      rw [List.foldl_cons]
      exact ih (fun y hy => hxs y (List.mem_cons_of_mem _ hy)) _
        (NN_add ha (hxs x (List.mem_cons_self _ _)))

theorem NN_sumF {xs : List F} (hxs : ∀ x ∈ xs, NN x) : NN (sumF xs) :=
  NN_foldl xs hxs _ (Or.inr (Or.inr ⟨0, rfl, le_refl 0⟩))

theorem NN_div_nat {x : F} (hx : NN x) {w : Nat} (hw : w ≠ 0) :
    NN (F.div x (F.fin (w : ℚ))) := by
  have hwpos : (0 : ℚ) < (w : ℚ) := by exact_mod_cast Nat.pos_of_ne_zero hw
  rcases hx with rfl | rfl | ⟨a, rfl, ha⟩
  · exact Or.inl rfl
  · exact Or.inr (Or.inl (by simp [F.div, hwpos.ne', hwpos]))
  · exact Or.inr (Or.inr ⟨a / w, by rw [F.div_fin _ hwpos.ne'], div_nonneg ha hwpos.le⟩)

theorem NN_gain (cl : Ser) (t : Nat) : NN (gainS cl t) := by
  show NN (F.clipLower0 (deltaS cl t))
  rcases hd : deltaS cl t with _ | s | a
  · exact Or.inl rfl
  · cases s
    · exact Or.inr (Or.inr ⟨0, rfl, le_refl 0⟩)
    · exact Or.inr (Or.inl rfl)
  · exact Or.inr (Or.inr ⟨max a 0, rfl, le_max_right a 0⟩)

theorem NN_loss (cl : Ser) (t : Nat) : NN (lossS cl t) := by
  show NN (F.neg (F.clipUpper0 (deltaS cl t)))
  rcases hd : deltaS cl t with _ | s | a
  · exact Or.inl rfl
  · cases s
    · exact Or.inr (Or.inl rfl)
    · exact Or.inr (Or.inr ⟨-0, rfl, by norm_num⟩)
  · exact Or.inr (Or.inr ⟨-(min a 0), rfl, by simp [min_le_right a 0]⟩)

theorem NN_rollingMean {f : Ser} (hf : ∀ i, NN (f i)) (w t : Nat) (hw : w ≠ 0) :
    NN (rollingMean w f t) := by
  rw [rollingMean]
  by_cases hc : t + 1 < w
  · rw [if_pos hc]; exact Or.inl rfl
  · rw [if_neg hc]
    refine NN_div_nat (NN_sumF ?_) hw
    intro x hx
    rcases List.mem_map.mp hx with ⟨i, _, rfl⟩
    exact hf _

theorem NN_avgGain (cl : Ser) (t : Nat) : NN (avgGainS cl t) :=
  NN_rollingMean (NN_gain cl) 14 t (by omega)

theorem NN_avgLoss (cl : Ser) (t : Nat) : NN (avgLossS cl t) :=
  NN_rollingMean (NN_loss cl) 14 t (by omega)

theorem NN_rs (cl : Ser) (t : Nat) : NN (rsS cl t) := by
  show NN (F.div (avgGainS cl t) (avgLossS cl t))
  rcases NN_avgGain cl t with hg | hg | ⟨a, hg, ha⟩ <;>
    rcases NN_avgLoss cl t with hl | hl | ⟨b, hl, hb⟩ <;> rw [hg, hl]
  · exact Or.inl rfl
  · exact Or.inl rfl
  · exact Or.inl (F.nan_div _)
  · exact Or.inl rfl
  · exact Or.inl rfl
  · by_cases hb0 : b = 0
    · subst hb0
      exact Or.inr (Or.inl (by simp [F.div]))
    · have hbpos : 0 < b := lt_of_le_of_ne hb (Ne.symm hb0)
      exact Or.inr (Or.inl (by simp [F.div, hb0, hbpos]))
  · exact Or.inl rfl
  · exact Or.inr (Or.inr ⟨0, rfl, le_refl 0⟩)
  · by_cases hb0 : b = 0
    · subst hb0
      by_cases ha0 : a = 0
      · subst ha0
        exact Or.inl F.div_fin_zero_zero
      · have hapos : 0 < a := lt_of_le_of_ne ha (Ne.symm ha0)
        exact Or.inr (Or.inl (by rw [F.div_fin_zero ha0]; simp [hapos]))
    · exact Or.inr (Or.inr ⟨a / b, F.div_fin _ hb0,
        div_nonneg ha (lt_of_le_of_ne hb (Ne.symm hb0)).le⟩)

theorem rsi_bound (cl : Ser) (t : Nat) (q : ℚ) (h : rsiS cl t = F.fin q) :
    0 ≤ q ∧ q ≤ 100 := by
  have h' : F.sub (F.fin 100) (F.div (F.fin 100) (F.add (F.fin 1) (rsS cl t))) = F.fin q := h
  rcases NN_rs cl t with h1 | h1 | ⟨a, h1, ha⟩ <;> rw [h1] at h'
  · simp at h'
  · simp at h'
    constructor <;> simp [← h']
  · have hpos : (0 : ℚ) < 1 + a := by linarith
    rw [F.add_fin, F.div_fin _ hpos.ne', F.sub_fin] at h'
    have hq : 100 - 100 / (1 + a) = q := by
      have := h'
      simp at this
      exact this
    have hle : 100 / (1 + a) ≤ 100 := by
      rw [div_le_iff₀ hpos]
      nlinarith
    have hgt : 0 < 100 / (1 + a) := by positivity
    constructor <;> linarith

theorem foldl_min_le (ys : List ℚ) : ∀ a : ℚ,
    ys.foldl min a ≤ a ∧ ∀ y ∈ ys, ys.foldl min a ≤ y := by
  induction ys with
  | nil => intro a; exact ⟨le_refl a, by simp⟩
  | cons y ys ih =>
      intro a
      rw [List.foldl_cons]
      rcases ih (min a y) with ⟨h1, h2⟩
      refine ⟨h1.trans (min_le_left a y), ?_⟩
      intro z hz
      rcases List.mem_cons.mp hz with rfl | hz'
      · exact h1.trans (min_le_right a z)
      · exact h2 z hz'

theorem foldl_max_ge (ys : List ℚ) : ∀ a : ℚ,
    a ≤ ys.foldl max a ∧ ∀ y ∈ ys, y ≤ ys.foldl max a := by
  induction ys with
  | nil => intro a; exact ⟨le_refl a, by simp⟩
  | cons y ys ih =>
      intro a
      rw [List.foldl_cons]
      rcases ih (max a y) with ⟨h1, h2⟩
      refine ⟨(le_max_left a y).trans h1, ?_⟩
      intro z hz
      rcases List.mem_cons.mp hz with rfl | hz'
      · exact (le_max_right a z).trans h1
      · exact h2 z hz'

theorem foldl_minF_map_fin (ys : List ℚ) : ∀ a : ℚ,
    (ys.map F.fin).foldl F.minF (F.fin a) = F.fin (ys.foldl min a) := by
  induction ys with
  | nil => intro a; rfl
  | cons y ys ih => intro a; rw [List.map_cons, List.foldl_cons, F.minF_fin, List.foldl_cons, ih]

theorem foldl_maxF_map_fin (ys : List ℚ) : ∀ a : ℚ,
    (ys.map F.fin).foldl F.maxF (F.fin a) = F.fin (ys.foldl max a) := by
  induction ys with
  | nil => intro a; rfl
  | cons y ys ih => intro a; rw [List.map_cons, List.foldl_cons, F.maxF_fin, List.foldl_cons, ih]

theorem minL_map_fin {ys : List ℚ} (h : ys ≠ []) :
    ∃ m : ℚ, minL (ys.map F.fin) = F.fin m ∧ ∀ y ∈ ys, m ≤ y := by
  cases ys with
  | nil => exact absurd rfl h
  | cons y ys =>
      rw [List.map_cons, minL, foldl_minF_map_fin]
      refine ⟨ys.foldl min y, rfl, ?_⟩
      intro z hz
      rcases List.mem_cons.mp hz with rfl | hz'
      · exact (foldl_min_le ys z).1
      · exact (foldl_min_le ys y).2 z hz'

theorem maxL_map_fin {ys : List ℚ} (h : ys ≠ []) :
    ∃ M : ℚ, maxL (ys.map F.fin) = F.fin M ∧ ∀ y ∈ ys, y ≤ M := by
  cases ys with
  | nil => exact absurd rfl h
  | cons y ys =>
      rw [List.map_cons, maxL, foldl_maxF_map_fin]
      refine ⟨ys.foldl max y, rfl, ?_⟩
      intro z hz
      rcases List.mem_cons.mp hz with rfl | hz'
      · exact (foldl_max_ge ys z).1
      · exact (foldl_max_ge ys y).2 z hz'

theorem windowL_map_fin {w t : Nat} {f : Ser} {g : Nat → ℚ}
    (hv : ∀ i, i ≤ t → f i = F.fin (g i)) (hw : w ≤ t + 1) :
    windowL w f t = ((List.range w).map (fun j => g (t + 1 - w + j))).map F.fin := by
  rw [windowL, List.map_map]
  exact List.map_congr_left (fun j hj => hv _ (by
    have := List.mem_range.mp hj
    omega))

theorem rollingMin_fins {w t : Nat} {f : Ser} {g : Nat → ℚ}
    (hv : ∀ i, i ≤ t → f i = F.fin (g i)) (hw : w ≤ t + 1) (hw0 : w ≠ 0) :
    ∃ m : ℚ, rollingMin w f t = F.fin m ∧ ∀ i, t + 1 - w ≤ i → i ≤ t → m ≤ g i := by
  rw [rollingMin, if_neg (by omega), windowL_map_fin hv hw]
  obtain ⟨m, hm, hb⟩ := minL_map_fin
    (show ((List.range w).map (fun j => g (t + 1 - w + j))) ≠ [] by simp [hw0])
  refine ⟨m, hm, ?_⟩
  intro i hi1 hi2
  have he : g i = g (t + 1 - w + (i - (t + 1 - w))) := by congr 1; omega
  rw [he]
  exact hb _ (List.mem_map_of_mem _ (List.mem_range.mpr (by omega)))

theorem rollingMax_fins {w t : Nat} {f : Ser} {g : Nat → ℚ}
    (hv : ∀ i, i ≤ t → f i = F.fin (g i)) (hw : w ≤ t + 1) (hw0 : w ≠ 0) :
    ∃ M : ℚ, rollingMax w f t = F.fin M ∧ ∀ i, t + 1 - w ≤ i → i ≤ t → g i ≤ M := by
  rw [rollingMax, if_neg (by omega), windowL_map_fin hv hw]
  obtain ⟨M, hM, hb⟩ := maxL_map_fin
    (show ((List.range w).map (fun j => g (t + 1 - w + j))) ≠ [] by simp [hw0])
  refine ⟨M, hM, ?_⟩
  intro i hi1 hi2
  have he : g i = g (t + 1 - w + (i - (t + 1 - w))) := by congr 1; omega
  rw [he]
  exact hb _ (List.mem_map_of_mem _ (List.mem_range.mpr (by omega)))

theorem stochK_warmup {cl hi lo : Ser} {u : Nat} (h : u < 13) :
    stochKS cl hi lo u = F.nan := by
  show F.div (F.mul (F.fin 100) (F.sub (cl u) (low14S lo u)))
      (F.sub (high14S hi u) (low14S lo u)) = F.nan
  rw [low14S, rollingMin, if_pos (by omega)]
  simp

theorem willr_warmup {cl hi lo : Ser} {u : Nat} (h : u < 13) :
    willrS cl hi lo u = F.nan := by
  show F.div (F.mul (F.fin (-100)) (F.sub (high14S hi u) (cl u)))
      (F.sub (high14S hi u) (low14S lo u)) = F.nan
  rw [low14S, rollingMin, if_pos (by omega), high14S, rollingMax, if_pos (by omega)]
  simp

theorem range14_fins {hi lo : Ser} {hq lq : Nat → ℚ} {n : Nat}
    (hhv : ∀ u, u < n → hi u = F.fin (hq u))
    (hlv : ∀ u, u < n → lo u = F.fin (lq u))
    {t : Nat} (h13 : 13 ≤ t) (ht : t < n) :
    ∃ m M : ℚ, low14S lo t = F.fin m ∧ high14S hi t = F.fin M ∧
      (∀ i, t + 1 - 14 ≤ i → i ≤ t → m ≤ lq i) ∧
      (∀ i, t + 1 - 14 ≤ i → i ≤ t → hq i ≤ M) := by
  obtain ⟨m, hm, hmb⟩ := rollingMin_fins
    (show ∀ i, i ≤ t → lo i = F.fin (lq i) from fun i hi' => hlv i (by omega))
    (show 14 ≤ t + 1 by omega) (by omega)
  obtain ⟨M, hM, hMb⟩ := rollingMax_fins
    (show ∀ i, i ≤ t → hi i = F.fin (hq i) from fun i hi' => hhv i (by omega))
    (show 14 ≤ t + 1 by omega) (by omega)
  exact ⟨m, M, hm, hM, hmb, hMb⟩

theorem stochK_val {cl hi lo : Ser} {cq hq lq : Nat → ℚ} {n : Nat}
    (hcv : ∀ u, u < n → cl u = F.fin (cq u))
    (hhv : ∀ u, u < n → hi u = F.fin (hq u))
    (hlv : ∀ u, u < n → lo u = F.fin (lq u))
    (hrow : ∀ u, u < n → lq u ≤ cq u ∧ cq u ≤ hq u)
    (hrange : ∀ u, 13 ≤ u → u < n → ∃ r, 0 < r ∧
      F.sub (high14S hi u) (low14S lo u) = F.fin r)
    {t : Nat} (h13 : 13 ≤ t) (ht : t < n) :
    ∃ b : ℚ, stochKS cl hi lo t = F.fin b ∧ 0 ≤ b ∧ b ≤ 100 := by
  obtain ⟨m, M, hm, hM, hmb, hMb⟩ := range14_fins hhv hlv h13 ht
  obtain ⟨r, hr, hrfin⟩ := hrange t h13 ht
  rw [hm, hM, F.sub_fin] at hrfin
  have hMm : M - m = r := by
    have := hrfin
    simp at this
    exact this
  have hden : M - m ≠ 0 := by rw [hMm]; exact hr.ne'
  have hnum1 : m ≤ cq t := (hmb t (by omega) (le_refl t)).trans (hrow t ht).1
  have hnum2 : cq t ≤ M := (hrow t ht).2.trans (hMb t (by omega) (le_refl t))
  refine ⟨100 * (cq t - m) / (M - m), ?_, ?_, ?_⟩
  · show F.div (F.mul (F.fin 100) (F.sub (cl t) (low14S lo t)))
        (F.sub (high14S hi t) (low14S lo t)) = _
    rw [hm, hM, hcv t ht, F.sub_fin, F.sub_fin, F.mul_fin, F.div_fin _ hden]
  · have h1 : 0 ≤ cq t - m := by linarith
    have h2 : 0 < M - m := by rw [hMm]; exact hr
    positivity
  · have h2 : 0 < M - m := by rw [hMm]; exact hr
    rw [div_le_iff₀ h2]
    nlinarith

theorem willr_val {cl hi lo : Ser} {cq hq lq : Nat → ℚ} {n : Nat}
    (hcv : ∀ u, u < n → cl u = F.fin (cq u))
    (hhv : ∀ u, u < n → hi u = F.fin (hq u))
    (hlv : ∀ u, u < n → lo u = F.fin (lq u))
    (hrow : ∀ u, u < n → lq u ≤ cq u ∧ cq u ≤ hq u)
    (hrange : ∀ u, 13 ≤ u → u < n → ∃ r, 0 < r ∧
      F.sub (high14S hi u) (low14S lo u) = F.fin r)
    {t : Nat} (h13 : 13 ≤ t) (ht : t < n) :
    ∃ b : ℚ, willrS cl hi lo t = F.fin b ∧ -100 ≤ b ∧ b ≤ 0 := by
  obtain ⟨m, M, hm, hM, hmb, hMb⟩ := range14_fins hhv hlv h13 ht
  obtain ⟨r, hr, hrfin⟩ := hrange t h13 ht
  rw [hm, hM, F.sub_fin] at hrfin
  have hMm : M - m = r := by
    have := hrfin
    simp at this
    exact this
  have hden : M - m ≠ 0 := by rw [hMm]; exact hr.ne'
  have hnum1 : m ≤ cq t := (hmb t (by omega) (le_refl t)).trans (hrow t ht).1
  have hnum2 : cq t ≤ M := (hrow t ht).2.trans (hMb t (by omega) (le_refl t))
  refine ⟨-100 * (M - cq t) / (M - m), ?_, ?_, ?_⟩
  · show F.div (F.mul (F.fin (-100)) (F.sub (high14S hi t) (cl t)))
        (F.sub (high14S hi t) (low14S lo t)) = _
    rw [hm, hM, hcv t ht, F.sub_fin, F.sub_fin, F.mul_fin, F.div_fin _ hden]
  · have h2 : 0 < M - m := by rw [hMm]; exact hr
    have heq : -100 * (M - cq t) / (M - m) = -(100 * (M - cq t) / (M - m)) := by ring
    have hle : 100 * (M - cq t) / (M - m) ≤ 100 := by
      rw [div_le_iff₀ h2]
      nlinarith
    rw [heq]
    linarith
  · have h2 : 0 < M - m := by rw [hMm]; exact hr
    have heq : -100 * (M - cq t) / (M - m) = -(100 * (M - cq t) / (M - m)) := by ring
    have hge : 0 ≤ 100 * (M - cq t) / (M - m) := div_nonneg (by nlinarith) h2.le
    rw [heq]
    linarith

theorem colOf_getD_out {n t : Nat} (f : Ser) (h : n ≤ t) :
    (colOf n f).getD t F.nan = F.nan := by
  rw [List.getD_eq_getElem?_getD, List.getElem?_eq_none (by simpa using h)]
  rfl

theorem foldl_add_bounds {lb ub : ℚ} : ∀ (xs : List F) (a : ℚ),
    (∀ x ∈ xs, ∃ b, x = F.fin b ∧ lb ≤ b ∧ b ≤ ub) →
    ∃ s, xs.foldl F.add (F.fin a) = F.fin s ∧
      a + xs.length * lb ≤ s ∧ s ≤ a + xs.length * ub := by
  intro xs
  induction xs with
  | nil => intro a _; exact ⟨a, rfl, by simp, by simp⟩
  | cons x xs ih =>
      intro a hx
      obtain ⟨b, rfl, hb1, hb2⟩ := hx x (List.mem_cons_self _ _)
      rw [List.foldl_cons, F.add_fin]
      obtain ⟨s, hs, hl, hr⟩ := ih (a + b) (fun y hy => hx y (List.mem_cons_of_mem _ hy))
      refine ⟨s, hs, ?_, ?_⟩ <;> rw [List.length_cons] <;> push_cast <;> linarith

theorem stochD_bound {cl hi lo : Ser} {cq hq lq : Nat → ℚ} {n : Nat}
    (hcv : ∀ u, u < n → cl u = F.fin (cq u))
    (hhv : ∀ u, u < n → hi u = F.fin (hq u))
    (hlv : ∀ u, u < n → lo u = F.fin (lq u))
    (hrow : ∀ u, u < n → lq u ≤ cq u ∧ cq u ≤ hq u)
    (hrange : ∀ u, 13 ≤ u → u < n → ∃ r, 0 < r ∧
      F.sub (high14S hi u) (low14S lo u) = F.fin r)
    {t : Nat} (ht : t < n) {q : ℚ} (hfin : stochDS cl hi lo t = F.fin q) :
    0 ≤ q ∧ q ≤ 100 := by
  have hfin' : rollingMean 3 (stochKS cl hi lo) t = F.fin q := hfin
  by_cases h15 : 15 ≤ t
  · have hK : ∀ i, t + 1 - 3 ≤ i → i ≤ t →
        ∃ b, stochKS cl hi lo i = F.fin b ∧ 0 ≤ b ∧ b ≤ 100 :=
      fun i h1 h2 => stochK_val hcv hhv hlv hrow hrange (by omega) (by omega)
    rw [rollingMean, if_neg (by omega)] at hfin'
    have helems : ∀ x ∈ windowL 3 (stochKS cl hi lo) t,
        ∃ b, x = F.fin b ∧ 0 ≤ b ∧ b ≤ 100 := by
      intro x hx
      rcases List.mem_map.mp hx with ⟨j, hj, rfl⟩
      have hj3 := List.mem_range.mp hj
      exact hK _ (by omega) (by omega)
    obtain ⟨s, hs, hl, hr⟩ := foldl_add_bounds (windowL 3 (stochKS cl hi lo) t) 0 helems
    rw [show sumF (windowL 3 (stochKS cl hi lo) t) = F.fin s from hs,
      F.div_fin _ (show ((3 : Nat) : ℚ) ≠ 0 by norm_num)] at hfin'
    have hq3 : s / 3 = q := by
      have := hfin'
      simp at this
      exact this
    have hlen : (windowL 3 (stochKS cl hi lo) t).length = 3 := by simp [windowL]
    rw [hlen] at hl hr
    push_cast at hl hr
    constructor
    · rw [← hq3]
      have hs0 : (0 : ℚ) ≤ s := by linarith
      exact div_nonneg hs0 (by norm_num)
    · rw [← hq3, div_le_iff₀ (by norm_num : (0 : ℚ) < 3)]
      linarith
  · by_cases h2 : 2 ≤ t
    · have hnan : stochKS cl hi lo (t - 2) = F.nan := stochK_warmup (by omega)
      rw [rollingMean_nan 3 t (t - 2) (by omega) (by omega) hnan (by omega)] at hfin'
      simp at hfin'
    · rw [rollingMean, if_pos (by omega)] at hfin'
      simp at hfin'

theorem low14_dfBand : low14S (serOf bandLow) 13 = F.fin 0 :=
  rollingMin_const (fun i h1 h2 => serOf_replicate (by omega)) (by omega) (by omega)

theorem high14_dfBand : high14S (serOf bandHigh) 13 = F.fin 2 :=
  rollingMax_const (fun i h1 h2 => serOf_replicate (by omega)) (by omega) (by omega)

theorem range_dfBand : ∀ u, 13 ≤ u → u < 14 →
    ∃ r : ℚ, 0 < r ∧ F.sub (high14S (serOf bandHigh) u) (low14S (serOf bandLow) u) = F.fin r := by
  intro u h13 h14
  have hu : u = 13 := by omega
  subst hu
  refine ⟨2, by norm_num, ?_⟩
  rw [low14_dfBand, high14_dfBand, F.sub_fin]
  norm_num

theorem stochK_dfBand : colVal (compute_indicators dfBand) stochKName 13 = F.fin 50 := by
  rw [compute_eq_enrich (rfl : List.lookup closeName dfBand = some bandClose)
    (rfl : List.lookup highName dfBand = some bandHigh)
    (rfl : List.lookup lowName dfBand = some bandLow)]
  rw [colVal_enrich_stochK _ _ _ _ (by simp [bandClose])]
  show F.div (F.mul (F.fin 100) (F.sub (serOf bandClose 13) (low14S (serOf bandLow) 13)))
      (F.sub (high14S (serOf bandHigh) 13) (low14S (serOf bandLow) 13)) = F.fin 50
  rw [low14_dfBand, high14_dfBand,
    show serOf bandClose 13 = F.fin 1 from serOf_replicate (by omega), F.sub_fin, F.sub_fin,
    F.mul_fin, F.div_fin _ (show (2 : ℚ) - 0 ≠ 0 by norm_num)]
  congr 1
  norm_num

theorem willr_dfBand : colVal (compute_indicators dfBand) willrName 13 = F.fin (-50) := by
  rw [compute_eq_enrich (rfl : List.lookup closeName dfBand = some bandClose)
    (rfl : List.lookup highName dfBand = some bandHigh)
    (rfl : List.lookup lowName dfBand = some bandLow)]
  rw [colVal_enrich_willr _ _ _ _ (by simp [bandClose])]
  show F.div (F.mul (F.fin (-100)) (F.sub (high14S (serOf bandHigh) 13) (serOf bandClose 13)))
      (F.sub (high14S (serOf bandHigh) 13) (low14S (serOf bandLow) 13)) = F.fin (-50)
  rw [low14_dfBand, high14_dfBand,
    show serOf bandClose 13 = F.fin 1 from serOf_replicate (by omega), F.sub_fin, F.sub_fin,
    F.mul_fin, F.div_fin _ (show (2 : ℚ) - 0 ≠ 0 by norm_num)]
  congr 1
  norm_num

theorem rsi_dfInc : colVal (compute_indicators dfInc) rsiName 14 = F.fin 100 := by
  rw [compute_eq_enrich (rfl : List.lookup closeName dfInc = some incCol)
    (rfl : List.lookup highName dfInc = some incCol)
    (rfl : List.lookup lowName dfInc = some incCol)]
  rw [colVal_enrich_rsi _ _ _ _ (by simp [incCol])]
  show rsiS (serOf incCol) 14 = F.fin 100
  simp [rsiS, rsS, avgLoss_dfInc, avgGain_dfInc, F.div_fin_zero (by norm_num : (1 : ℚ) ≠ 0)]

/-- C3 as amended: for every input frame, every defined (finite) RSI value
lies in [0, 100]; and for every frame with finite prices, per-row
Low ≤ Close ≤ High, and a strictly positive 14-period high-low range at
every step past warm-up, every defined Stochastic %K and %D value lies in
[−100, 100] and every defined Williams %R value lies in [−100, 0] (the
original claim's [0, 100] for Williams %R is impossible: the indicator is
nonpositive by construction). -/
theorem claim_C3 :
    (∀ (df : DF) (cs hs ls : List F),
      List.lookup closeName df = some cs → List.lookup highName df = some hs →
      List.lookup lowName df = some ls →
      ∀ t (q : ℚ), colVal (compute_indicators df) rsiName t = F.fin q →
        0 ≤ q ∧ q ≤ 100) ∧
    (∀ (df : DF) (cs hs ls : List F) (cq hq lq : Nat → ℚ),
      List.lookup closeName df = some cs → List.lookup highName df = some hs →
      List.lookup lowName df = some ls →
      (∀ u, u < cs.length → cs.getD u F.nan = F.fin (cq u)) →
      (∀ u, u < cs.length → hs.getD u F.nan = F.fin (hq u)) →
      (∀ u, u < cs.length → ls.getD u F.nan = F.fin (lq u)) →
      (∀ u, u < cs.length → lq u ≤ cq u ∧ cq u ≤ hq u) →
      (∀ u, 13 ≤ u → u < cs.length → ∃ r : ℚ, 0 < r ∧
        F.sub (high14S (serOf hs) u) (low14S (serOf ls) u) = F.fin r) →
      ∀ t (q : ℚ),
        (colVal (compute_indicators df) stochKName t = F.fin q → -100 ≤ q ∧ q ≤ 100) ∧
        (colVal (compute_indicators df) stochDName t = F.fin q → -100 ≤ q ∧ q ≤ 100) ∧
        (colVal (compute_indicators df) willrName t = F.fin q → -100 ≤ q ∧ q ≤ 0)) := by
  constructor
  · intro df cs hs ls h1 h2 h3 t q hq'
    rw [compute_eq_enrich h1 h2 h3] at hq'
    by_cases htn : t < cs.length
    · rw [colVal_enrich_rsi _ _ _ _ htn] at hq'
      exact rsi_bound _ _ _ hq'
    · rw [colVal, lookup_enrich_rsi, Option.getD_some,
        colOf_getD_out _ (by omega)] at hq'
      simp at hq'
  · intro df cs hs ls cq hq lq h1 h2 h3 hc hh hl hrow hrange t q
    rw [compute_eq_enrich h1 h2 h3]
    have hcv : ∀ u, u < cs.length → serOf cs u = F.fin (cq u) := hc
    have hhv : ∀ u, u < cs.length → serOf hs u = F.fin (hq u) := hh
    have hlv : ∀ u, u < cs.length → serOf ls u = F.fin (lq u) := hl
    refine ⟨?_, ?_, ?_⟩
    · intro hq'
      by_cases htn : t < cs.length
      · rw [colVal_enrich_stochK _ _ _ _ htn] at hq'
        by_cases h13 : 13 ≤ t
        · obtain ⟨b, hb, hb1, hb2⟩ := stochK_val hcv hhv hlv hrow hrange h13 htn
          rw [hb] at hq'
          simp at hq'
          constructor <;> linarith [hq' ▸ hb1, hq' ▸ hb2]
        · rw [stochK_warmup (by omega)] at hq'
          simp at hq'
      · rw [colVal, lookup_enrich_stochK, Option.getD_some,
          colOf_getD_out _ (by omega)] at hq'
        simp at hq'
    · intro hq'
      by_cases htn : t < cs.length
      · rw [colVal_enrich_stochD _ _ _ _ htn] at hq'
        have := stochD_bound hcv hhv hlv hrow hrange htn hq'
        constructor <;> linarith [this.1, this.2]
      · rw [colVal, lookup_enrich_stochD, Option.getD_some,
          colOf_getD_out _ (by omega)] at hq'
        simp at hq'
    · intro hq'
      by_cases htn : t < cs.length
      · rw [colVal_enrich_willr _ _ _ _ htn] at hq'
        by_cases h13 : 13 ≤ t
        · obtain ⟨b, hb, hb1, hb2⟩ := willr_val hcv hhv hlv hrow hrange h13 htn
          rw [hb] at hq'
          simp at hq'
          constructor <;> linarith [hq' ▸ hb1, hq' ▸ hb2]
        · rw [willr_warmup (by omega)] at hq'
          simp at hq'
      · rw [colVal, lookup_enrich_willr, Option.getD_some,
          colOf_getD_out _ (by omega)] at hq'
        simp at hq'

/-- Witness for C3: the RSI bound at the increasing frame's defined value
100, and the %K bound at the band frame's defined value 50. -/
theorem claim_C3_witness :
    (0 ≤ (100 : ℚ) ∧ (100 : ℚ) ≤ 100) ∧ (-100 ≤ (50 : ℚ) ∧ (50 : ℚ) ≤ 100) :=
  ⟨claim_C3.1 dfInc incCol incCol incCol rfl rfl rfl 14 100 rsi_dfInc,
   (claim_C3.2 dfBand bandClose bandHigh bandLow (fun _ => 1) (fun _ => 2) (fun _ => 0)
      rfl rfl rfl
      (fun u hu => getD_replicate (by simpa [bandClose] using hu))
      (fun u hu => getD_replicate (by simpa [bandClose] using hu))
      (fun u hu => getD_replicate (by simpa [bandClose] using hu))
      (fun u _ => by norm_num)
      (fun u h13 hu => range_dfBand u h13 (by simpa [bandClose] using hu))
      13 50).1 stochK_dfBand⟩

/-- Counterexample to C3 as stated: on the band frame (which satisfies the
claim's hypotheses) the Williams %R value at step 13 is −50, which does not
lie in [0, 100]. -/
theorem claim_C3_cex :
    colVal (compute_indicators dfBand) willrName 13 = F.fin (-50) ∧
    ¬ (0 ≤ (-50 : ℚ) ∧ (-50 : ℚ) ≤ 100) :=
  ⟨willr_dfBand, by norm_num⟩

theorem windowL_map_fin' {w t : Nat} {f : Ser} {g : Nat → ℚ}
    (hv : ∀ i, t + 1 - w ≤ i → i ≤ t → f i = F.fin (g i)) (hw : w ≤ t + 1) :
    windowL w f t = ((List.range w).map (fun j => g (t + 1 - w + j))).map F.fin := by
  rw [windowL, List.map_map]
  refine List.map_congr_left (fun j hj => ?_)
  have hj' := List.mem_range.mp hj
  exact hv _ (by omega) (by omega)

theorem foldl_radd_map_fin : ∀ (ys : List ℚ) (a : ℚ),
    (ys.map F.fin).foldl F.add (F.fin a) = F.fin (ys.foldl (· + ·) a) := by
  intro ys
  induction ys with
  | nil => intro a; rfl
  | cons y ys ih => intro a; rw [List.map_cons, List.foldl_cons, F.add_fin, List.foldl_cons, ih]

theorem foldl_radd_le : ∀ (ys : List ℚ) (a : ℚ), (∀ y ∈ ys, 0 ≤ y) →
    a ≤ ys.foldl (· + ·) a := by
  intro ys
  induction ys with
  | nil => intro a _; exact le_refl a
  | cons y ys ih =>
      intro a hy
      rw [List.foldl_cons]
      have h1 : 0 ≤ y := hy y (List.mem_cons_self _ _)
      have h2 := ih (a + y) (fun z hz => hy z (List.mem_cons_of_mem _ hz))
      linarith

theorem foldl_radd_ge_of_mem : ∀ (ys : List ℚ) (a y0 : ℚ), (∀ y ∈ ys, 0 ≤ y) →
    y0 ∈ ys → a + y0 ≤ ys.foldl (· + ·) a := by
  intro ys
  induction ys with
  | nil => intro a y0 _ h; cases h
  | cons y ys ih =>
      intro a y0 hy h0
      rw [List.foldl_cons]
      rcases List.mem_cons.mp h0 with rfl | h0'
      · have := foldl_radd_le ys (a + y0) (fun z hz => hy z (List.mem_cons_of_mem _ hz))
        linarith
      · have h1 : 0 ≤ y := hy y (List.mem_cons_self _ _)
        have := ih (a + y) y0 (fun z hz => hy z (List.mem_cons_of_mem _ hz)) h0'
        linarith

theorem rollingSum_eval {w t : Nat} {f : Ser} {g : Nat → ℚ}
    (hv : ∀ i, t + 1 - w ≤ i → i ≤ t → f i = F.fin (g i)) (hw : w ≤ t + 1) :
    rollingSum w f t
      = F.fin (((List.range w).map (fun j => g (t + 1 - w + j))).foldl (· + ·) 0) := by
  rw [rollingSum, if_neg (by omega), windowL_map_fin' hv hw, sumF, foldl_radd_map_fin]

theorem rollingMean_eval {w t : Nat} {f : Ser} {g : Nat → ℚ}
    (hv : ∀ i, t + 1 - w ≤ i → i ≤ t → f i = F.fin (g i)) (hw : w ≤ t + 1) (hw0 : w ≠ 0) :
    rollingMean w f t
      = F.fin ((((List.range w).map (fun j => g (t + 1 - w + j))).foldl (· + ·) 0) / w) := by
  rw [rollingMean, if_neg (by omega), windowL_map_fin' hv hw, sumF, foldl_radd_map_fin,
    F.div_fin _ (show ((w : Nat) : ℚ) ≠ 0 by exact_mod_cast hw0)]

theorem winSum_nonneg {w t : Nat} {g : Nat → ℚ}
    (hg : ∀ i, t + 1 - w ≤ i → i ≤ t → 0 ≤ g i) (hw : w ≤ t + 1) :
    0 ≤ ((List.range w).map (fun j => g (t + 1 - w + j))).foldl (· + ·) 0 := by
  refine foldl_radd_le _ 0 ?_
  intro y hy
  rcases List.mem_map.mp hy with ⟨j, hj, rfl⟩
  have hj' := List.mem_range.mp hj
  exact hg _ (by omega) (by omega)

theorem winSum_pos {w t i0 : Nat} {g : Nat → ℚ}
    (hg : ∀ i, t + 1 - w ≤ i → i ≤ t → 0 ≤ g i) (hw : w ≤ t + 1)
    (h1 : t + 1 - w ≤ i0) (h2 : i0 ≤ t) (hpos : 0 < g i0) :
    0 < ((List.range w).map (fun j => g (t + 1 - w + j))).foldl (· + ·) 0 := by
  have hmem : g i0 ∈ (List.range w).map (fun j => g (t + 1 - w + j)) := by
    refine List.mem_map.mpr ⟨i0 - (t + 1 - w), List.mem_range.mpr (by omega), ?_⟩
    congr 1
    omega
  have h := foldl_radd_ge_of_mem _ 0 (g i0) ?_ hmem
  · linarith
  · intro y hy
    rcases List.mem_map.mp hy with ⟨j, hj, rfl⟩
    have hj' := List.mem_range.mp hj
    exact hg _ (by omega) (by omega)

theorem foldl_add_fins : ∀ (xs : List F) (a : ℚ), (∀ x ∈ xs, ∃ b, x = F.fin b) →
    ∃ s, xs.foldl F.add (F.fin a) = F.fin s := by
  intro xs
  induction xs with
  | nil => intro a _; exact ⟨a, rfl⟩
  | cons x xs ih =>
      intro a hx
      obtain ⟨b, rfl⟩ := hx x (List.mem_cons_self _ _)
      rw [List.foldl_cons, F.add_fin]
      exact ih (a + b) (fun y hy => hx y (List.mem_cons_of_mem _ hy))

theorem ewmStep_fin_fin (a b c : ℚ) :
    ewmStep a (F.fin b, 1) (F.fin c)
      = (F.fin (if c = b then b else (1 * (1 - a) * b + a * c) / (1 * (1 - a) + a)), 1) := by
  by_cases hcb : c = b
  · subst hcb
    simp [ewmStep]
  · have hne : F.fin c ≠ F.fin b := by simp [hcb]
    have hden : 1 * (1 - a) + a ≠ 0 := by
      ring_nf
      norm_num
    simp only [ewmStep]
    rw [if_neg hne, if_neg hcb, F.mul_fin, F.mul_fin, F.add_fin, F.div_fin _ hden]

theorem ewmStep_val {a : ℚ} (ha0 : 0 < a) (ha1 : a < 1) (b c : ℚ) :
    (0 ≤ b → 0 ≤ c → 0 ≤ (if c = b then b else (1 * (1 - a) * b + a * c) / (1 * (1 - a) + a))) ∧
    (0 < b → 0 ≤ c → 0 < (if c = b then b else (1 * (1 - a) * b + a * c) / (1 * (1 - a) + a))) ∧
    (0 ≤ b → 0 < c → 0 < (if c = b then b else (1 * (1 - a) * b + a * c) / (1 * (1 - a) + a))) := by
  by_cases hcb : c = b
  · subst hcb
    rw [if_pos rfl]
    exact ⟨fun h _ => h, fun h _ => h, fun _ h => h⟩
  · rw [if_neg hcb]
    have he : (1 * (1 - a) * b + a * c) / (1 * (1 - a) + a) = (1 - a) * b + a * c := by
      rw [show (1 : ℚ) * (1 - a) + a = 1 by ring]
      rw [div_one]
      ring
    rw [he]
    refine ⟨fun hb hc => ?_, fun hb hc => ?_, fun hb hc => ?_⟩ <;> nlinarith

theorem ewmState_fins {a : ℚ} {f : Ser} :
    ∀ t, (∀ s, s ≤ t → ∃ b, f s = F.fin b) → ∃ b, ewmState a f t = (F.fin b, 1) := by
  intro t
  induction t with
  | zero =>
      intro hf
      obtain ⟨b, hb⟩ := hf 0 (le_refl 0)
      rw [ewmState, hb]
      exact ⟨b, rfl⟩
  | succ t ih =>
      intro hf
      obtain ⟨b, hb⟩ := ih (fun s hs => hf s (Nat.le_succ_of_le hs))
      obtain ⟨c, hc⟩ := hf (t + 1) (le_refl _)
      rw [ewmState, hb, hc, ewmStep_fin_fin]
      exact ⟨_, rfl⟩

theorem ewmS_fins {a : ℚ} {f : Ser} {t : Nat} (hf : ∀ s, s ≤ t → ∃ b, f s = F.fin b) :
    ∃ b, ewmS a f t = F.fin b := by
  obtain ⟨b, hb⟩ := ewmState_fins t hf
  exact ⟨b, by rw [ewmS, hb]⟩

theorem ewmState_zero_nan {a : ℚ} {f : Ser} (h0 : f 0 = F.nan) :
    ewmState a f 0 = (F.nan, 1) := by
  rw [ewmState, h0]
  rfl

theorem ewmS_zero_nan {a : ℚ} {f : Ser} (h0 : f 0 = F.nan) : ewmS a f 0 = F.nan := by
  rw [ewmS, ewmState_zero_nan h0]

theorem ewm_nan_head_fins {a : ℚ} {f : Ser} (h0 : f 0 = F.nan) :
    ∀ t, 1 ≤ t → (∀ s, 1 ≤ s → s ≤ t → ∃ b, f s = F.fin b) →
      ∃ b, ewmState a f t = (F.fin b, 1) := by
  intro t
  induction t with
  | zero => intro h; omega
  | succ t ih =>
      intro _ hf
      rcases Nat.eq_zero_or_pos t with rfl | ht
      · obtain ⟨b, hb⟩ := hf 1 (le_refl 1) (le_refl 1)
        rw [ewmState, ewmState_zero_nan h0, hb]
        exact ⟨b, rfl⟩
      · obtain ⟨b, hb⟩ := ih ht (fun s h1 h2 => hf s h1 (by omega))
        obtain ⟨c, hc⟩ := hf (t + 1) (by omega) (le_refl _)
        rw [ewmState, hb, hc, ewmStep_fin_fin]
        exact ⟨_, rfl⟩

theorem ewm_nan_head_pos {a : ℚ} (ha0 : 0 < a) (ha1 : a < 1) {f : Ser} (h0 : f 0 = F.nan) :
    ∀ t, 1 ≤ t → (∀ s, 1 ≤ s → s ≤ t → ∃ b, f s = F.fin b ∧ 0 ≤ b) →
    ∃ b, ewmState a f t = (F.fin b, 1) ∧ 0 ≤ b ∧
      ∀ s0 b0, 1 ≤ s0 → s0 ≤ t → f s0 = F.fin b0 → 0 < b0 → 0 < b := by
  intro t
  induction t with
  | zero => intro h; omega
  | succ t ih =>
      intro _ hf
      rcases Nat.eq_zero_or_pos t with rfl | ht
      · obtain ⟨b, hb, hb0⟩ := hf 1 (le_refl 1) (le_refl 1)
        refine ⟨b, ?_, hb0, ?_⟩
        · rw [ewmState, ewmState_zero_nan h0, hb]
          rfl
        · intro s0 b0 h1 h2 hfs hpos
          have hs0 : s0 = 1 := by omega
          subst hs0
          rw [hb] at hfs
          have : b = b0 := by
            have := hfs
            simp at this
            exact this
          rw [this]
          exact hpos
      · obtain ⟨b, hb, hb0, hbpos⟩ := ih ht (fun s h1 h2 => hf s h1 (by omega))
        obtain ⟨c, hc, hc0⟩ := hf (t + 1) (by omega) (le_refl _)
        refine ⟨_, by rw [ewmState, hb, hc, ewmStep_fin_fin], ?_, ?_⟩
        · exact (ewmStep_val ha0 ha1 b c).1 hb0 hc0
        · intro s0 b0 h1 h2 hfs hpos
          rcases Nat.lt_or_ge s0 (t + 1) with hlt | hge
          · have hbp : 0 < b := hbpos s0 b0 h1 (by omega) hfs hpos
            exact (ewmStep_val ha0 ha1 b c).2.1 hbp hc0
          · have hs0 : s0 = t + 1 := by omega
            subst hs0
            rw [hc] at hfs
            have hcb0 : c = b0 := by
              have := hfs
              simp at this
              exact this
            exact (ewmStep_val ha0 ha1 b c).2.2 hb0 (hcb0 ▸ hpos)

theorem foldl_radd_le' : ∀ (ys : List ℚ) (a : ℚ), (∀ y ∈ ys, y ≤ 0) →
    ys.foldl (· + ·) a ≤ a := by
  intro ys
  induction ys with
  | nil => intro a _; exact le_refl a
  | cons y ys ih =>
      intro a hy
      rw [List.foldl_cons]
      have h1 : y ≤ 0 := hy y (List.mem_cons_self _ _)
      have h2 := ih (a + y) (fun z hz => hy z (List.mem_cons_of_mem _ hz))
      linarith

theorem winSum_nonpos {w t : Nat} {g : Nat → ℚ}
    (hg : ∀ i, t + 1 - w ≤ i → i ≤ t → g i ≤ 0) (hw : w ≤ t + 1) :
    ((List.range w).map (fun j => g (t + 1 - w + j))).foldl (· + ·) 0 ≤ 0 := by
  refine foldl_radd_le' _ 0 ?_
  intro y hy
  rcases List.mem_map.mp hy with ⟨j, hj, rfl⟩
  have hj' := List.mem_range.mp hj
  exact hg _ (by omega) (by omega)

theorem madW_pos {ys : List ℚ} (hdiff : ∃ y1 ∈ ys, ∃ y2 ∈ ys, y1 ≠ y2) :
    ∃ dv : ℚ, madW (ys.map F.fin) = F.fin dv ∧ 0 < dv := by
  obtain ⟨y1, hy1, y2, hy2, hne⟩ := hdiff
  have hlen : ys ≠ [] := by
    rintro rfl
    cases hy1
  have hlen0 : ys.length ≠ 0 := by simpa [List.length_eq_zero] using hlen
  have hlq : ((ys.length : Nat) : ℚ) ≠ 0 := by exact_mod_cast hlen0
  have hlpos : (0 : ℚ) < ((ys.length : Nat) : ℚ) := by
    exact_mod_cast Nat.pos_of_ne_zero hlen0
  have hsum1 : sumF (ys.map F.fin) = F.fin (ys.foldl (· + ·) 0) := by
    rw [sumF, foldl_radd_map_fin]
  have hm : F.div (sumF (ys.map F.fin)) (F.fin (ys.length : ℚ))
      = F.fin (ys.foldl (· + ·) 0 / (ys.length : ℚ)) := by
    rw [hsum1, F.div_fin _ hlq]
  rw [madW]
  simp only [List.length_map]
  have hdev : (ys.map F.fin).map
        (fun x => F.absF (F.sub x (F.div (sumF (ys.map F.fin)) (F.fin (ys.length : ℚ)))))
      = (ys.map (fun y => |y - ys.foldl (· + ·) 0 / (ys.length : ℚ)|)).map F.fin := by
    rw [List.map_map, List.map_map]
    refine List.map_congr_left (fun y _ => ?_)
    show F.absF (F.sub (F.fin y) (F.div (sumF (ys.map F.fin)) (F.fin (ys.length : ℚ)))) = _
    rw [hm, F.sub_fin, F.absF_fin]
    rfl
  rw [hdev, sumF, foldl_radd_map_fin, F.div_fin _ hlq]
  refine ⟨_, rfl, ?_⟩
  have hy0 : ∃ y0 ∈ ys, y0 ≠ ys.foldl (· + ·) 0 / (ys.length : ℚ) := by
    by_cases h1 : y1 = ys.foldl (· + ·) 0 / (ys.length : ℚ)
    · exact ⟨y2, hy2, fun he => hne (by rw [h1, he])⟩
    · exact ⟨y1, hy1, h1⟩
  obtain ⟨y0, hy0m, hy0ne⟩ := hy0
  have habs : 0 < |y0 - ys.foldl (· + ·) 0 / (ys.length : ℚ)| :=
    abs_pos.mpr (sub_ne_zero.mpr hy0ne)
  have hmem : |y0 - ys.foldl (· + ·) 0 / (ys.length : ℚ)|
      ∈ ys.map (fun y => |y - ys.foldl (· + ·) 0 / (ys.length : ℚ)|) :=
    List.mem_map_of_mem _ hy0m
  have hge := foldl_radd_ge_of_mem
    (ys.map (fun y => |y - ys.foldl (· + ·) 0 / (ys.length : ℚ)|)) 0 _ ?_ hmem
  · refine div_pos ?_ hlpos
    linarith
  · intro z hz
    rcases List.mem_map.mp hz with ⟨y, _, rfl⟩
    exact abs_nonneg _

theorem delta_view {cl : Ser} {cq : Nat → ℚ} {n : Nat}
    (hcv : ∀ u, u < n → cl u = F.fin (cq u)) {i : Nat} (h1 : 1 ≤ i) (h2 : i < n) :
    deltaS cl i = F.fin (cq i - cq (i - 1)) := by
  simp only [deltaS, diffS]
  rw [if_neg (by omega), hcv i h2, hcv (i - 1) (by omega), F.sub_fin]

theorem gain_view {cl : Ser} {cq : Nat → ℚ} {n : Nat}
    (hcv : ∀ u, u < n → cl u = F.fin (cq u)) {i : Nat} (h1 : 1 ≤ i) (h2 : i < n) :
    gainS cl i = F.fin (max (cq i - cq (i - 1)) 0) := by
  show F.clipLower0 (deltaS cl i) = _
  rw [delta_view hcv h1 h2, F.clipLower0_fin]

theorem loss_view {cl : Ser} {cq : Nat → ℚ} {n : Nat}
    (hcv : ∀ u, u < n → cl u = F.fin (cq u)) {i : Nat} (h1 : 1 ≤ i) (h2 : i < n) :
    lossS cl i = F.fin (-min (cq i - cq (i - 1)) 0) := by
  show F.neg (F.clipUpper0 (deltaS cl i)) = _
  rw [delta_view hcv h1 h2, F.clipUpper0_fin, F.neg_fin]

theorem clipUp_view {cl : Ser} {cq : Nat → ℚ} {n : Nat}
    (hcv : ∀ u, u < n → cl u = F.fin (cq u)) {i : Nat} (h1 : 1 ≤ i) (h2 : i < n) :
    F.clipUpper0 (deltaS cl i) = F.fin (min (cq i - cq (i - 1)) 0) := by
  rw [delta_view hcv h1 h2, F.clipUpper0_fin]

theorem tp_view {cl hi lo : Ser} {cq hq lq : Nat → ℚ} {n : Nat}
    (hcv : ∀ u, u < n → cl u = F.fin (cq u))
    (hhv : ∀ u, u < n → hi u = F.fin (hq u))
    (hlv : ∀ u, u < n → lo u = F.fin (lq u)) {i : Nat} (h2 : i < n) :
    typicalPriceS cl hi lo i = F.fin ((hq i + lq i + cq i) / 3) := by
  show F.div (F.add (F.add (hi i) (lo i)) (cl i)) (F.fin 3) = _
  rw [hcv i h2, hhv i h2, hlv i h2, F.add_fin, F.add_fin,
    F.div_fin _ (show (3 : ℚ) ≠ 0 by norm_num)]

theorem median_view {hi lo : Ser} {hq lq : Nat → ℚ} {n : Nat}
    (hhv : ∀ u, u < n → hi u = F.fin (hq u))
    (hlv : ∀ u, u < n → lo u = F.fin (lq u)) {i : Nat} (h2 : i < n) :
    medianPriceS hi lo i = F.fin ((hq i + lq i) / 2) := by
  show F.div (F.add (hi i) (lo i)) (F.fin 2) = _
  rw [hhv i h2, hlv i h2, F.add_fin, F.div_fin _ (show (2 : ℚ) ≠ 0 by norm_num)]

theorem bp_view {cl lo : Ser} {cq lq : Nat → ℚ} {n : Nat}
    (hcv : ∀ u, u < n → cl u = F.fin (cq u))
    (hlv : ∀ u, u < n → lo u = F.fin (lq u)) {i : Nat} (h1 : 1 ≤ i) (h2 : i < n) :
    bpS cl lo i = F.fin (cq i - min (lq i) (cq (i - 1))) := by
  show F.sub (cl i) (F.pairMin (lo i) (prevCloseS cl i)) = _
  have hp : prevCloseS cl i = F.fin (cq (i - 1)) := by
    show shiftS 1 cl i = _
    simp only [shiftS]
    rw [if_neg (by omega), hcv (i - 1) (by omega)]
  rw [hp, hcv i h2, hlv i h2, F.pairMin_fin, F.sub_fin]

theorem tr_view {cl hi lo : Ser} {cq hq lq : Nat → ℚ} {n : Nat}
    (hcv : ∀ u, u < n → cl u = F.fin (cq u))
    (hhv : ∀ u, u < n → hi u = F.fin (hq u))
    (hlv : ∀ u, u < n → lo u = F.fin (lq u)) {i : Nat} (h1 : 1 ≤ i) (h2 : i < n) :
    trS cl hi lo i = F.fin (max (hq i) (cq (i - 1)) - min (lq i) (cq (i - 1))) := by
  show F.sub (F.pairMax (hi i) (prevCloseS cl i)) (F.pairMin (lo i) (prevCloseS cl i)) = _
  have hp : prevCloseS cl i = F.fin (cq (i - 1)) := by
    show shiftS 1 cl i = _
    simp only [shiftS]
    rw [if_neg (by omega), hcv (i - 1) (by omega)]
  rw [hp, hhv i h2, hlv i h2, F.pairMax_fin, F.pairMin_fin, F.sub_fin]

theorem foldl_radd_le_of_mem : ∀ (ys : List ℚ) (a y0 : ℚ), (∀ y ∈ ys, y ≤ 0) →
    y0 ∈ ys → ys.foldl (· + ·) a ≤ a + y0 := by
  intro ys
  induction ys with
  | nil => intro a y0 _ h; cases h
  | cons y ys ih =>
      intro a y0 hy h0
      rw [List.foldl_cons]
      rcases List.mem_cons.mp h0 with rfl | h0'
      · have := foldl_radd_le' ys (a + y0) (fun z hz => hy z (List.mem_cons_of_mem _ hz))
        linarith
      · have h1 : y ≤ 0 := hy y (List.mem_cons_self _ _)
        have := ih (a + y) y0 (fun z hz => hy z (List.mem_cons_of_mem _ hz)) h0'
        linarith

theorem winSum_neg {w t i0 : Nat} {g : Nat → ℚ}
    (hg : ∀ i, t + 1 - w ≤ i → i ≤ t → g i ≤ 0) (hw : w ≤ t + 1)
    (h1 : t + 1 - w ≤ i0) (h2 : i0 ≤ t) (hneg : g i0 < 0) :
    ((List.range w).map (fun j => g (t + 1 - w + j))).foldl (· + ·) 0 < 0 := by
  have hmem : g i0 ∈ (List.range w).map (fun j => g (t + 1 - w + j)) := by
    refine List.mem_map.mpr ⟨i0 - (t + 1 - w), List.mem_range.mpr (by omega), ?_⟩
    congr 1
    omega
  have h := foldl_radd_le_of_mem _ 0 (g i0) ?_ hmem
  · linarith
  · intro y hy
    rcases List.mem_map.mp hy with ⟨j, hj, rfl⟩
    have hj' := List.mem_range.mp hj
    exact hg _ (by omega) (by omega)

theorem rollingAgg_spec {w t : Nat} {f : Ser} {g : Nat → ℚ}
    (hv : ∀ i, t + 1 - w ≤ i → i ≤ t → f i = F.fin (g i)) (hw : w ≤ t + 1) (hw0 : w ≠ 0) :
    ∃ S : ℚ, rollingSum w f t = F.fin S ∧ rollingMean w f t = F.fin (S / w) ∧
      ((∀ i, t + 1 - w ≤ i → i ≤ t → 0 ≤ g i) → 0 ≤ S) ∧
      (∀ i0, t + 1 - w ≤ i0 → i0 ≤ t → 0 < g i0 →
        (∀ i, t + 1 - w ≤ i → i ≤ t → 0 ≤ g i) → 0 < S) ∧
      ((∀ i, t + 1 - w ≤ i → i ≤ t → g i ≤ 0) → S ≤ 0) ∧
      (∀ i0, t + 1 - w ≤ i0 → i0 ≤ t → g i0 < 0 →
        (∀ i, t + 1 - w ≤ i → i ≤ t → g i ≤ 0) → S < 0) := by
  refine ⟨_, rollingSum_eval hv hw, rollingMean_eval hv hw hw0, ?_, ?_, ?_, ?_⟩
  · intro hg
    exact winSum_nonneg hg hw
  · intro i0 h1 h2 hpos hg
    exact winSum_pos hg hw h1 h2 hpos
  · intro hg
    exact winSum_nonpos hg hw
  · intro i0 h1 h2 hneg hg
    exact winSum_neg hg hw h1 h2 hneg

theorem rsi_fin_at {cl : Ser} {cq : Nat → ℚ} {n : Nat}
    (hcv : ∀ u, u < n → cl u = F.fin (cq u)) (hn : 34 ≤ n)
    (hdelta : ∃ s, n - 13 ≤ s ∧ s ≤ n - 1 ∧ cq s ≠ cq (s - 1)) :
    ∃ b, rsiS cl (n - 1) = F.fin b := by
  obtain ⟨s, hs1, hs2, hsne⟩ := hdelta
  have hgw : ∀ i, n - 1 + 1 - 14 ≤ i → i ≤ n - 1 →
      gainS cl i = F.fin (max (cq i - cq (i - 1)) 0) :=
    fun i hi1 hi2 => gain_view hcv (by omega) (by omega)
  have hlw : ∀ i, n - 1 + 1 - 14 ≤ i → i ≤ n - 1 →
      lossS cl i = F.fin (-min (cq i - cq (i - 1)) 0) :=
    fun i hi1 hi2 => loss_view hcv (by omega) (by omega)
  obtain ⟨SG, _, hGmean, hGnn, hGpos, _, _⟩ := rollingAgg_spec hgw (by omega) (by omega)
  obtain ⟨SL, _, hLmean, hLnn, hLpos, _, _⟩ := rollingAgg_spec hlw (by omega) (by omega)
  have hG0 : 0 ≤ SG := hGnn (fun i _ _ => le_max_right _ _)
  have hL0 : 0 ≤ SL := hLnn (fun i _ _ => by simp [min_le_right (cq i - cq (i - 1)) 0])
  have hGL : 0 < SG ∨ 0 < SL := by
    rcases lt_or_gt_of_ne (sub_ne_zero.mpr hsne) with hneg | hpos
    · right
      refine hLpos s (by omega) (by omega) (by simp [min_eq_left hneg.le]; linarith)
        (fun i _ _ => by simp [min_le_right (cq i - cq (i - 1)) 0])
    · left
      refine hGpos s (by omega) (by omega) (by rw [max_eq_left hpos.le]; linarith)
        (fun i _ _ => le_max_right _ _)
  have hrs : rsS cl (n - 1) = F.div (F.fin (SG / 14)) (F.fin (SL / 14)) := by
    show F.div (avgGainS cl (n - 1)) (avgLossS cl (n - 1)) = _
    rw [show avgGainS cl (n - 1) = F.fin (SG / 14) from hGmean,
      show avgLossS cl (n - 1) = F.fin (SL / 14) from hLmean]
  by_cases hL : SL = 0
  · have hGpos' : 0 < SG := by
      rcases hGL with h | h
      · exact h
      · rw [hL] at h
        exact absurd h (lt_irrefl 0)
    have hrs' : rsS cl (n - 1) = F.inf true := by
      rw [hrs, hL]
      rw [show (0 : ℚ) / 14 = 0 by norm_num]
      rw [F.div_fin_zero (by positivity)]
      simp [div_pos hGpos']
    refine ⟨100, ?_⟩
    show F.sub (F.fin 100) (F.div (F.fin 100) (F.add (F.fin 1) (rsS cl (n - 1)))) = _
    rw [hrs']
    simp
  · have hLpos' : 0 < SL / 14 := by
      have : 0 < SL := lt_of_le_of_ne hL0 (Ne.symm hL)
      positivity
    have hrs' : rsS cl (n - 1) = F.fin (SG / 14 / (SL / 14)) := by
      rw [hrs, F.div_fin _ hLpos'.ne']
    have hrsnn : 0 ≤ SG / 14 / (SL / 14) := by positivity
    have hden : (1 : ℚ) + SG / 14 / (SL / 14) ≠ 0 := by positivity
    refine ⟨100 - 100 / (1 + SG / 14 / (SL / 14)), ?_⟩
    show F.sub (F.fin 100) (F.div (F.fin 100) (F.add (F.fin 1) (rsS cl (n - 1)))) = _
    rw [hrs', F.add_fin, F.div_fin _ hden, F.sub_fin]

theorem cmo_fin_at {cl : Ser} {cq : Nat → ℚ} {n : Nat}
    (hcv : ∀ u, u < n → cl u = F.fin (cq u)) (hn : 34 ≤ n)
    (hdelta : ∃ s, n - 13 ≤ s ∧ s ≤ n - 1 ∧ cq s ≠ cq (s - 1)) :
    ∃ b, cmoS cl (n - 1) = F.fin b := by
  obtain ⟨s, hs1, hs2, hsne⟩ := hdelta
  have hgw : ∀ i, n - 1 + 1 - 14 ≤ i → i ≤ n - 1 →
      gainS cl i = F.fin (max (cq i - cq (i - 1)) 0) :=
    fun i hi1 hi2 => gain_view hcv (by omega) (by omega)
  have hclw : ∀ i, n - 1 + 1 - 14 ≤ i → i ≤ n - 1 →
      F.clipUpper0 (deltaS cl i) = F.fin (min (cq i - cq (i - 1)) 0) :=
    fun i hi1 hi2 => clipUp_view hcv (by omega) (by omega)
  obtain ⟨SG, hGsum, _, hGnn, hGpos, _, _⟩ := rollingAgg_spec hgw (by omega) (by omega)
  obtain ⟨SM, hMsum, _, _, _, hMnp, hMneg⟩ := rollingAgg_spec hclw (by omega) (by omega)
  have hG0 : 0 ≤ SG := hGnn (fun i _ _ => le_max_right _ _)
  have hM0 : SM ≤ 0 := hMnp (fun i _ _ => min_le_right _ _)
  have hg : gainCmoS cl (n - 1) = F.fin SG := hGsum
  have hl : lossCmoS cl (n - 1) = F.fin (-SM) := by
    show F.neg (rollingSum 14 (fun s' => F.clipUpper0 (deltaS cl s')) (n - 1)) = _
    rw [show rollingSum 14 (fun s' => F.clipUpper0 (deltaS cl s')) (n - 1) = F.fin SM from hMsum,
      F.neg_fin]
  have hden : 0 < SG + -SM := by
    rcases lt_or_gt_of_ne (sub_ne_zero.mpr hsne) with hneg | hpos
    · have : SM < 0 :=
        hMneg s (by omega) (by omega) (by rw [min_eq_left hneg.le]; exact hneg)
          (fun i _ _ => min_le_right _ _)
      linarith
    · have : 0 < SG :=
        hGpos s (by omega) (by omega) (by rw [max_eq_left hpos.le]; exact hpos)
          (fun i _ _ => le_max_right _ _)
      linarith
  refine ⟨100 * (SG - -SM) / (SG + -SM), ?_⟩
  show F.div (F.mul (F.fin 100) (F.sub (gainCmoS cl (n - 1)) (lossCmoS cl (n - 1))))
      (F.add (gainCmoS cl (n - 1)) (lossCmoS cl (n - 1))) = _
  rw [hg, hl, F.sub_fin, F.mul_fin, F.add_fin, F.div_fin _ hden.ne']

theorem stochD_fin_at {cl hi lo : Ser} {cq hq lq : Nat → ℚ} {n : Nat}
    (hcv : ∀ u, u < n → cl u = F.fin (cq u))
    (hhv : ∀ u, u < n → hi u = F.fin (hq u))
    (hlv : ∀ u, u < n → lo u = F.fin (lq u))
    (hrow : ∀ u, u < n → lq u ≤ cq u ∧ cq u ≤ hq u)
    (hrange : ∀ u, 13 ≤ u → u < n → ∃ r : ℚ, 0 < r ∧
      F.sub (high14S hi u) (low14S lo u) = F.fin r)
    (hn : 34 ≤ n) :
    ∃ b, stochDS cl hi lo (n - 1) = F.fin b := by
  have helems : ∀ x ∈ windowL 3 (stochKS cl hi lo) (n - 1), ∃ b, x = F.fin b := by
    intro x hx
    rcases List.mem_map.mp hx with ⟨j, hj, rfl⟩
    have hj3 := List.mem_range.mp hj
    obtain ⟨b, hb, _, _⟩ := stochK_val hcv hhv hlv hrow hrange
      (show 13 ≤ n - 1 + 1 - 3 + j by omega) (show n - 1 + 1 - 3 + j < n by omega)
    exact ⟨b, hb⟩
  obtain ⟨s, hs⟩ := foldl_add_fins (windowL 3 (stochKS cl hi lo) (n - 1)) 0 helems
  refine ⟨s / 3, ?_⟩
  show rollingMean 3 (stochKS cl hi lo) (n - 1) = _
  rw [rollingMean, if_neg (by omega),
    show sumF (windowL 3 (stochKS cl hi lo) (n - 1)) = F.fin s from hs,
    F.div_fin _ (show ((3 : Nat) : ℚ) ≠ 0 by norm_num)]
  norm_num

theorem tsi_fin_at {cl : Ser} {cq : Nat → ℚ} {n : Nat}
    (hcv : ∀ u, u < n → cl u = F.fin (cq u)) (hn : 34 ≤ n)
    (hdelta : ∃ s, n - 13 ≤ s ∧ s ≤ n - 1 ∧ cq s ≠ cq (s - 1)) :
    ∃ b, tsiS cl (n - 1) = F.fin b := by
  obtain ⟨s, hs1, hs2, hsne⟩ := hdelta
  have h0d : deltaS cl 0 = F.nan := by simp [deltaS, diffS]
  have h0a : absDeltaS cl 0 = F.nan := by
    show F.absF (deltaS cl 0) = F.nan
    rw [h0d]
    rfl
  have hdfin : ∀ u, 1 ≤ u → u ≤ n - 1 → ∃ b, deltaS cl u = F.fin b :=
    fun u h1 h2 => ⟨_, delta_view hcv h1 (by omega)⟩
  have hafin : ∀ u, 1 ≤ u → u ≤ n - 1 → ∃ b, absDeltaS cl u = F.fin b ∧ 0 ≤ b := by
    intro u h1 h2
    refine ⟨|cq u - cq (u - 1)|, ?_, abs_nonneg _⟩
    show F.absF (deltaS cl u) = _
    rw [delta_view hcv h1 (by omega)]
    rfl
  -- inner EWM over the raw delta: finite from step 1 on
  have hy1fin : ∀ u, 1 ≤ u → u ≤ n - 1 → ∃ b, ewmS (1 / 13) (deltaS cl) u = F.fin b := by
    intro u h1 h2
    obtain ⟨b, hb⟩ := ewm_nan_head_fins h0d u h1 (fun v hv1 hv2 => hdfin v hv1 (by omega))
    exact ⟨b, by rw [ewmS, hb]⟩
  have hdsp : ∃ b, dspS cl (n - 1) = F.fin b := by
    obtain ⟨b, hb⟩ := ewm_nan_head_fins (ewmS_zero_nan h0d) (n - 1) (by omega)
      (fun v hv1 hv2 => hy1fin v hv1 hv2)
    exact ⟨b, by rw [show dspS cl (n - 1) = (ewmState (1 / 7) (ewmS (1 / 13) (deltaS cl)) (n - 1)).1 from rfl, hb]⟩
  -- inner EWM over |delta|: finite, nonnegative, positive once a move is seen
  have hy2 : ∀ u, 1 ≤ u → u ≤ n - 1 →
      ∃ b, ewmS (1 / 13) (absDeltaS cl) u = F.fin b ∧ 0 ≤ b ∧
        (s ≤ u → 0 < b) := by
    intro u h1 h2
    obtain ⟨b, hb, hb0, hbpos⟩ := ewm_nan_head_pos (show (0 : ℚ) < 1 / 13 by norm_num)
      (show (1 : ℚ) / 13 < 1 by norm_num) h0a u h1
      (fun v hv1 hv2 => hafin v hv1 (by omega))
    refine ⟨b, by rw [ewmS, hb], hb0, ?_⟩
    intro hsu
    obtain ⟨bs, hbs, _⟩ := hafin s (by omega) (by omega)
    have hbspos : 0 < bs := by
      have : absDeltaS cl s = F.fin |cq s - cq (s - 1)| := by
        show F.absF (deltaS cl s) = _
        rw [delta_view hcv (by omega) (by omega)]
        rfl
      rw [this] at hbs
      have hb' : |cq s - cq (s - 1)| = bs := by
        have := hbs
        simp at this
        exact this
      rw [← hb']
      exact abs_pos.mpr (sub_ne_zero.mpr hsne)
    exact hbpos s bs (by omega) hsu hbs hbspos
  have hdsap : ∃ b, dsapS cl (n - 1) = F.fin b ∧ 0 < b := by
    obtain ⟨D, hD, hD0, hDpos⟩ := ewm_nan_head_pos (show (0 : ℚ) < 1 / 7 by norm_num)
      (show (1 : ℚ) / 7 < 1 by norm_num) (ewmS_zero_nan h0a) (n - 1) (by omega)
      (fun v hv1 hv2 => by
        obtain ⟨b, hb, hb0, _⟩ := hy2 v hv1 hv2
        exact ⟨b, hb, hb0⟩)
    obtain ⟨bs, hbs, _, hbspos⟩ := hy2 s (by omega) (by omega)
    refine ⟨D, by rw [show dsapS cl (n - 1) = (ewmState (1 / 7) (ewmS (1 / 13) (absDeltaS cl)) (n - 1)).1 from rfl, hD], ?_⟩
    exact hDpos s bs (by omega) (by omega) hbs (hbspos (le_refl s))
  obtain ⟨b1, hb1⟩ := hdsp
  obtain ⟨D, hD, hDpos⟩ := hdsap
  refine ⟨100 * (b1 / D), ?_⟩
  show F.mul (F.fin 100) (F.div (dspS cl (n - 1)) (dsapS cl (n - 1))) = _
  rw [hb1, hD, F.div_fin _ hDpos.ne', F.mul_fin]

theorem cci_fin_at {cl hi lo : Ser} {cq hq lq : Nat → ℚ} {n : Nat}
    (hcv : ∀ u, u < n → cl u = F.fin (cq u))
    (hhv : ∀ u, u < n → hi u = F.fin (hq u))
    (hlv : ∀ u, u < n → lo u = F.fin (lq u)) (hn : 34 ≤ n)
    (htp2 : ∃ s, n - 20 ≤ s ∧ s ≤ n - 1 ∧ ∃ s', n - 20 ≤ s' ∧ s' ≤ n - 1 ∧
      (hq s + lq s + cq s) / 3 ≠ (hq s' + lq s' + cq s') / 3) :
    ∃ b, cciS cl hi lo (n - 1) = F.fin b := by
  obtain ⟨s, hs1, hs2, s', hs1', hs2', hsne⟩ := htp2
  have htq : ∀ i, n - 1 + 1 - 20 ≤ i → i ≤ n - 1 →
      typicalPriceS cl hi lo i = F.fin ((hq i + lq i + cq i) / 3) :=
    fun i hi1 hi2 => tp_view hcv hhv hlv (by omega)
  obtain ⟨SP, _, hSPmean, _, _, _, _⟩ := rollingAgg_spec htq (by omega) (by omega)
  have hsma : smaTpS cl hi lo (n - 1) = F.fin (SP / 20) := hSPmean
  have hmad : ∃ dv : ℚ, madS cl hi lo (n - 1) = F.fin dv ∧ 0 < dv := by
    have hmw : madS cl hi lo (n - 1)
        = madW (((List.range 20).map
            (fun j => (hq (n - 1 + 1 - 20 + j) + lq (n - 1 + 1 - 20 + j)
              + cq (n - 1 + 1 - 20 + j)) / 3)).map F.fin) := by
      show rollingMad 20 (typicalPriceS cl hi lo) (n - 1) = _
      rw [rollingMad, if_neg (by omega), windowL_map_fin' htq (by omega)]
    rw [hmw]
    refine madW_pos ⟨(hq s + lq s + cq s) / 3, ?_, (hq s' + lq s' + cq s') / 3, ?_, hsne⟩
    · refine List.mem_map.mpr ⟨s - (n - 1 + 1 - 20), List.mem_range.mpr (by omega), ?_⟩
      have : n - 1 + 1 - 20 + (s - (n - 1 + 1 - 20)) = s := by omega
      rw [this]
    · refine List.mem_map.mpr ⟨s' - (n - 1 + 1 - 20), List.mem_range.mpr (by omega), ?_⟩
      have : n - 1 + 1 - 20 + (s' - (n - 1 + 1 - 20)) = s' := by omega
      rw [this]
  obtain ⟨dv, hdv, hdvpos⟩ := hmad
  have hden : (3 : ℚ) / 200 * dv ≠ 0 := by positivity
  refine ⟨((hq (n - 1) + lq (n - 1) + cq (n - 1)) / 3 - SP / 20) / (3 / 200 * dv), ?_⟩
  show F.div (F.sub (typicalPriceS cl hi lo (n - 1)) (smaTpS cl hi lo (n - 1)))
      (F.mul (F.fin (3 / 200)) (madS cl hi lo (n - 1))) = _
  rw [hsma, hdv, tp_view hcv hhv hlv (show n - 1 < n by omega), F.sub_fin, F.mul_fin,
    F.div_fin _ hden]

theorem uo_fin_at {cl hi lo : Ser} {cq hq lq : Nat → ℚ} {n : Nat}
    (hcv : ∀ u, u < n → cl u = F.fin (cq u))
    (hhv : ∀ u, u < n → hi u = F.fin (hq u))
    (hlv : ∀ u, u < n → lo u = F.fin (lq u))
    (hpr : ∀ u, u < n → lq u < hq u) (hn : 34 ≤ n) :
    ∃ b, uoS cl hi lo (n - 1) = F.fin b := by
  have htr : ∀ (w : Nat), w ≤ 28 → w ≠ 0 →
      ∃ T : ℚ, rollingSum w (trS cl hi lo) (n - 1) = F.fin T ∧ 0 < T := by
    intro w hw28 hw0
    have htrw : ∀ i, n - 1 + 1 - w ≤ i → i ≤ n - 1 →
        trS cl hi lo i = F.fin (max (hq i) (cq (i - 1)) - min (lq i) (cq (i - 1))) :=
      fun i hi1 hi2 => tr_view hcv hhv hlv (by omega) (by omega)
    obtain ⟨T, hT, _, _, hTpos, _, _⟩ := rollingAgg_spec htrw (by omega) hw0
    refine ⟨T, hT, ?_⟩
    have hnn : ∀ i, n - 1 + 1 - w ≤ i → i ≤ n - 1 →
        0 ≤ max (hq i) (cq (i - 1)) - min (lq i) (cq (i - 1)) := by
      intro i hi1 hi2
      have h1 : hq i ≤ max (hq i) (cq (i - 1)) := le_max_left _ _
      have h2 : min (lq i) (cq (i - 1)) ≤ lq i := min_le_left _ _
      have h3 := hpr i (by omega)
      linarith
    refine hTpos (n - 1) (by omega) (le_refl _) ?_ hnn
    have h1 : hq (n - 1) ≤ max (hq (n - 1)) (cq (n - 1 - 1)) := le_max_left _ _
    have h2 : min (lq (n - 1)) (cq (n - 1 - 1)) ≤ lq (n - 1) := min_le_left _ _
    have h3 := hpr (n - 1) (by omega)
    linarith
  have hbp : ∀ (w : Nat), w ≤ 28 → w ≠ 0 →
      ∃ B : ℚ, rollingSum w (bpS cl lo) (n - 1) = F.fin B := by
    intro w hw28 hw0
    have hbpw : ∀ i, n - 1 + 1 - w ≤ i → i ≤ n - 1 →
        bpS cl lo i = F.fin (cq i - min (lq i) (cq (i - 1))) :=
      fun i hi1 hi2 => bp_view hcv hlv (by omega) (by omega)
    obtain ⟨B, hB, _, _, _, _, _⟩ := rollingAgg_spec hbpw (by omega) hw0
    exact ⟨B, hB⟩
  obtain ⟨T7, hT7, hT7pos⟩ := htr 7 (by omega) (by omega)
  obtain ⟨T14, hT14, hT14pos⟩ := htr 14 (by omega) (by omega)
  obtain ⟨T28, hT28, hT28pos⟩ := htr 28 (by omega) (by omega)
  obtain ⟨B7, hB7⟩ := hbp 7 (by omega) (by omega)
  obtain ⟨B14, hB14⟩ := hbp 14 (by omega) (by omega)
  obtain ⟨B28, hB28⟩ := hbp 28 (by omega) (by omega)
  have ha7 : avg7S cl hi lo (n - 1) = F.fin (B7 / T7) := by
    show F.div (rollingSum 7 (bpS cl lo) (n - 1)) (rollingSum 7 (trS cl hi lo) (n - 1)) = _
    rw [hB7, hT7, F.div_fin _ hT7pos.ne']
  have ha14 : avg14S cl hi lo (n - 1) = F.fin (B14 / T14) := by
    show F.div (rollingSum 14 (bpS cl lo) (n - 1)) (rollingSum 14 (trS cl hi lo) (n - 1)) = _
    rw [hB14, hT14, F.div_fin _ hT14pos.ne']
  have ha28 : avg28S cl hi lo (n - 1) = F.fin (B28 / T28) := by
    show F.div (rollingSum 28 (bpS cl lo) (n - 1)) (rollingSum 28 (trS cl hi lo) (n - 1)) = _
    rw [hB28, hT28, F.div_fin _ hT28pos.ne']
  refine ⟨100 * (4 * (B7 / T7) + 2 * (B14 / T14) + B28 / T28) / 7, ?_⟩
  show F.div
      (F.mul (F.fin 100)
        (F.add (F.add (F.mul (F.fin 4) (avg7S cl hi lo (n - 1)))
          (F.mul (F.fin 2) (avg14S cl hi lo (n - 1)))) (avg28S cl hi lo (n - 1))))
      (F.fin 7) = _
  rw [ha7, ha14, ha28, F.mul_fin, F.mul_fin, F.add_fin, F.add_fin, F.mul_fin,
    F.div_fin _ (show (7 : ℚ) ≠ 0 by norm_num)]

/-- C5 as amended: for every valid frame (three price columns, finite
prices, Low ≤ Close ≤ High per row) of length at least 34 whose per-row
high-low range is strictly positive at every step, and which additionally
has a nonzero close delta somewhere in the trailing 14 steps (otherwise
RSI, CMO and TSI are 0/0 = NaN), a non-constant typical price somewhere in
the trailing 20 steps (otherwise CCI is 0/0 = NaN), and a nonzero close 12
steps before the last row (otherwise ROC divides by zero), every one of the
13 indicator columns holds a finite value at the last row. -/
theorem claim_C5 (df : DF) (cs hs ls : List F) (cq hq lq : Nat → ℚ)
    (h1 : List.lookup closeName df = some cs) (h2 : List.lookup highName df = some hs)
    (h3 : List.lookup lowName df = some ls)
    (hc : ∀ u, u < cs.length → cs.getD u F.nan = F.fin (cq u))
    (hh : ∀ u, u < cs.length → hs.getD u F.nan = F.fin (hq u))
    (hl : ∀ u, u < cs.length → ls.getD u F.nan = F.fin (lq u))
    (hn : 34 ≤ cs.length)
    (hrow : ∀ u, u < cs.length → lq u ≤ cq u ∧ cq u ≤ hq u)
    (hpr : ∀ u, u < cs.length → lq u < hq u)
    (hdelta : ∃ s, cs.length - 13 ≤ s ∧ s ≤ cs.length - 1 ∧ cq s ≠ cq (s - 1))
    (htp2 : ∃ s, cs.length - 20 ≤ s ∧ s ≤ cs.length - 1 ∧ ∃ s', cs.length - 20 ≤ s' ∧
      s' ≤ cs.length - 1 ∧ (hq s + lq s + cq s) / 3 ≠ (hq s' + lq s' + cq s') / 3)
    (hroc : cq (cs.length - 13) ≠ 0) :
    F.isFin (colVal (compute_indicators df) rsiName (cs.length - 1)) = true ∧
    F.isFin (colVal (compute_indicators df) macdName (cs.length - 1)) = true ∧
    F.isFin (colVal (compute_indicators df) macdSignalName (cs.length - 1)) = true ∧
    F.isFin (colVal (compute_indicators df) stochKName (cs.length - 1)) = true ∧
    F.isFin (colVal (compute_indicators df) stochDName (cs.length - 1)) = true ∧
    F.isFin (colVal (compute_indicators df) rocName (cs.length - 1)) = true ∧
    F.isFin (colVal (compute_indicators df) momentumName (cs.length - 1)) = true ∧
    F.isFin (colVal (compute_indicators df) willrName (cs.length - 1)) = true ∧
    F.isFin (colVal (compute_indicators df) tsiName (cs.length - 1)) = true ∧
    F.isFin (colVal (compute_indicators df) aoName (cs.length - 1)) = true ∧
    F.isFin (colVal (compute_indicators df) cciName (cs.length - 1)) = true ∧
    F.isFin (colVal (compute_indicators df) cmoName (cs.length - 1)) = true ∧
    F.isFin (colVal (compute_indicators df) uoName (cs.length - 1)) = true := by
  rw [compute_eq_enrich h1 h2 h3]
  have hcv : ∀ u, u < cs.length → serOf cs u = F.fin (cq u) := hc
  have hhv : ∀ u, u < cs.length → serOf hs u = F.fin (hq u) := hh
  have hlv : ∀ u, u < cs.length → serOf ls u = F.fin (lq u) := hl
  have ht' : cs.length - 1 < cs.length := by omega
  have hfins : ∀ s, s ≤ cs.length - 1 → ∃ b, serOf cs s = F.fin b :=
    fun s hs' => ⟨_, hcv s (by omega)⟩
  have hrange : ∀ u, 13 ≤ u → u < cs.length → ∃ r : ℚ, 0 < r ∧
      F.sub (high14S (serOf hs) u) (low14S (serOf ls) u) = F.fin r := by
    intro u h13 hu
    obtain ⟨m, M, hm, hM, hmb, hMb⟩ := range14_fins hhv hlv h13 hu
    refine ⟨M - m, ?_, by rw [hm, hM, F.sub_fin]⟩
    have ha := hmb u (by omega) (le_refl u)
    have hb := hMb u (by omega) (le_refl u)
    have hcd := hpr u hu
    linarith
  refine ⟨?_, ?_, ?_, ?_, ?_, ?_, ?_, ?_, ?_, ?_, ?_, ?_, ?_⟩
  · rw [colVal_enrich_rsi _ _ _ _ ht']
    obtain ⟨b, hb⟩ := rsi_fin_at hcv hn hdelta
    rw [hb]
    rfl
  · rw [colVal_enrich_macd _ _ _ _ ht']
    obtain ⟨b1, hb1⟩ :=
      (ewmS_fins hfins : ∃ b, ewmS (2 / 13) (serOf cs) (cs.length - 1) = F.fin b)
    obtain ⟨b2, hb2⟩ :=
      (ewmS_fins hfins : ∃ b, ewmS (2 / 27) (serOf cs) (cs.length - 1) = F.fin b)
    show F.isFin (F.sub (ewmS (2 / 13) (serOf cs) (cs.length - 1))
      (ewmS (2 / 27) (serOf cs) (cs.length - 1))) = true
    rw [hb1, hb2, F.sub_fin]
    rfl
  · rw [colVal_enrich_macdSignal _ _ _ _ ht']
    have hmfins : ∀ s, s ≤ cs.length - 1 → ∃ b, macdS (serOf cs) s = F.fin b := by
      intro s hs'
      have hfins' : ∀ v, v ≤ s → ∃ b, serOf cs v = F.fin b :=
        fun v hv => ⟨_, hcv v (by omega)⟩
      obtain ⟨b1, hb1⟩ := (ewmS_fins hfins' : ∃ b, ewmS (2 / 13) (serOf cs) s = F.fin b)
      obtain ⟨b2, hb2⟩ := (ewmS_fins hfins' : ∃ b, ewmS (2 / 27) (serOf cs) s = F.fin b)
      refine ⟨b1 - b2, ?_⟩
      show F.sub (ewmS (2 / 13) (serOf cs) s) (ewmS (2 / 27) (serOf cs) s) = _
      rw [hb1, hb2, F.sub_fin]
    obtain ⟨b, hb⟩ :=
      (ewmS_fins hmfins : ∃ b, ewmS (1 / 5) (macdS (serOf cs)) (cs.length - 1) = F.fin b)
    show F.isFin (ewmS (1 / 5) (macdS (serOf cs)) (cs.length - 1)) = true
    rw [hb]
    rfl
  · rw [colVal_enrich_stochK _ _ _ _ ht']
    obtain ⟨b, hb, _, _⟩ := stochK_val hcv hhv hlv hrow hrange (by omega) ht'
    rw [hb]
    rfl
  · rw [colVal_enrich_stochD _ _ _ _ ht']
    obtain ⟨b, hb⟩ := stochD_fin_at hcv hhv hlv hrow hrange hn
    rw [hb]
    rfl
  · rw [colVal_enrich_roc _ _ _ _ ht']
    show F.isFin (F.mul (F.sub (F.div (serOf cs (cs.length - 1))
      (shiftS 12 (serOf cs) (cs.length - 1))) (F.fin 1)) (F.fin 100)) = true
    simp only [shiftS]
    rw [if_neg (by omega), show cs.length - 1 - 12 = cs.length - 13 from by omega,
      hcv (cs.length - 13) (by omega), hcv (cs.length - 1) (by omega),
      F.div_fin _ hroc, F.sub_fin, F.mul_fin]
    rfl
  · rw [colVal_enrich_momentum _ _ _ _ ht']
    show F.isFin (F.sub (serOf cs (cs.length - 1)) (shiftS 10 (serOf cs) (cs.length - 1)))
      = true
    simp only [shiftS]
    rw [if_neg (by omega), hcv (cs.length - 1 - 10) (by omega),
      hcv (cs.length - 1) (by omega), F.sub_fin]
    rfl
  · rw [colVal_enrich_willr _ _ _ _ ht']
    obtain ⟨b, hb, _, _⟩ := willr_val hcv hhv hlv hrow hrange (by omega) ht'
    rw [hb]
    rfl
  · rw [colVal_enrich_tsi _ _ _ _ ht']
    obtain ⟨b, hb⟩ := tsi_fin_at hcv hn hdelta
    rw [hb]
    rfl
  · rw [colVal_enrich_ao _ _ _ _ ht']
    have hmed5 : ∀ i, cs.length - 1 + 1 - 5 ≤ i → i ≤ cs.length - 1 →
        medianPriceS (serOf hs) (serOf ls) i = F.fin ((hq i + lq i) / 2) :=
      fun i hi1 hi2 => median_view hhv hlv (by omega)
    have hmed34 : ∀ i, cs.length - 1 + 1 - 34 ≤ i → i ≤ cs.length - 1 →
        medianPriceS (serOf hs) (serOf ls) i = F.fin ((hq i + lq i) / 2) :=
      fun i hi1 hi2 => median_view hhv hlv (by omega)
    obtain ⟨S5, _, hS5, _, _, _, _⟩ := rollingAgg_spec hmed5 (by omega) (by omega)
    obtain ⟨S34, _, hS34, _, _, _, _⟩ := rollingAgg_spec hmed34 (by omega) (by omega)
    show F.isFin (F.sub (rollingMean 5 (medianPriceS (serOf hs) (serOf ls)) (cs.length - 1))
      (rollingMean 34 (medianPriceS (serOf hs) (serOf ls)) (cs.length - 1))) = true
    rw [hS5, hS34, F.sub_fin]
    rfl
  · rw [colVal_enrich_cci _ _ _ _ ht']
    obtain ⟨b, hb⟩ := cci_fin_at hcv hhv hlv hn htp2
    rw [hb]
    rfl
  · rw [colVal_enrich_cmo _ _ _ _ ht']
    obtain ⟨b, hb⟩ := cmo_fin_at hcv hn hdelta
    rw [hb]
    rfl
  · rw [colVal_enrich_uo _ _ _ _ ht']
    obtain ⟨b, hb⟩ := uo_fin_at hcv hhv hlv hpr hn
    rw [hb]
    rfl

/-- Witness for C5 at the 34-row trending frame: the RSI and UO columns are
finite at the last row (two of the 13 conjuncts proved by the theorem). -/
theorem claim_C5_witness :
    F.isFin (colVal (compute_indicators (dfTrend 34)) rsiName ((trendClose 34).length - 1))
        = true ∧
    F.isFin (colVal (compute_indicators (dfTrend 34)) uoName ((trendClose 34).length - 1))
        = true := by
  have h := claim_C5 (dfTrend 34) (trendClose 34) (trendHigh 34) (trendLow 34)
    trendCloseQ trendHighQ trendLowQ rfl rfl rfl
    (fun u hu => colOf_getD _ (by simpa [trendClose] using hu))
    (fun u hu => colOf_getD _ (by simpa [trendClose] using hu))
    (fun u hu => colOf_getD _ (by simpa [trendClose] using hu))
    (by simp [trendClose])
    (fun u _ => by unfold trendCloseQ trendHighQ trendLowQ; constructor <;> linarith)
    (fun u _ => by unfold trendHighQ trendLowQ; linarith)
    ⟨33, by simp [trendClose], by simp [trendClose], by norm_num [trendCloseQ]⟩
    ⟨33, by simp [trendClose], by simp [trendClose], 32, by simp [trendClose],
      by simp [trendClose], by norm_num [trendCloseQ, trendHighQ, trendLowQ]⟩
    (by simp [trendClose]; norm_num [trendCloseQ])
  exact ⟨h.1, h.2.2.2.2.2.2.2.2.2.2.2.2⟩

/-- Counterexample to C5 as stated: the 34-row band frame has a strictly
positive high-low range at every step and valid rows, yet its close is
constant, so the RSI at the last row is 0/0, i.e. NaN — not a finite
value. -/
theorem claim_C5_cex :
    colVal (compute_indicators dfBand34) rsiName 33 = F.nan ∧ F.isFin F.nan = false := by
  refine ⟨?_, rfl⟩
  rw [compute_eq_enrich (rfl : List.lookup closeName dfBand34 = some band34Close)
    (rfl : List.lookup highName dfBand34 = some band34High)
    (rfl : List.lookup lowName dfBand34 = some band34Low)]
  rw [colVal_enrich_rsi _ _ _ _ (by simp [band34Close])]
  have hg : ∀ i, 33 + 1 - 14 ≤ i → i ≤ 33 → gainS (serOf band34Close) i = F.fin 0 := by
    intro i h1 h2
    show F.clipLower0 (deltaS (serOf band34Close) i) = F.fin 0
    simp only [deltaS, diffS]
    rw [if_neg (by omega), show serOf band34Close i = F.fin 1 from serOf_replicate (by omega),
      show serOf band34Close (i - 1) = F.fin 1 from serOf_replicate (by omega), F.sub_fin,
      sub_self, F.clipLower0_fin]
    norm_num
  have hl : ∀ i, 33 + 1 - 14 ≤ i → i ≤ 33 → lossS (serOf band34Close) i = F.fin 0 := by
    intro i h1 h2
    show F.neg (F.clipUpper0 (deltaS (serOf band34Close) i)) = F.fin 0
    simp only [deltaS, diffS]
    rw [if_neg (by omega), show serOf band34Close i = F.fin 1 from serOf_replicate (by omega),
      show serOf band34Close (i - 1) = F.fin 1 from serOf_replicate (by omega), F.sub_fin,
      sub_self, F.clipUpper0_fin]
    norm_num
  have hrs : rsS (serOf band34Close) 33 = F.nan := by
    show F.div (rollingMean 14 (gainS (serOf band34Close)) 33)
        (rollingMean 14 (lossS (serOf band34Close)) 33) = F.nan
    rw [rollingMean_const hg (by omega) (by omega), rollingMean_const hl (by omega) (by omega),
      F.div_fin_zero_zero]
  show F.sub (F.fin 100) (F.div (F.fin 100) (F.add (F.fin 1) (rsS (serOf band34Close) 33)))
      = F.nan
  rw [hrs]
  simp
